import Mathlib

/-!
The `ded` lexer (`src/lexer.c`).

A shallow embedding of `lexer_new`, `lexer_starts_with`, `lexer_chop_char`,
`lexer_trim_left`, `is_symbol_start`, `is_symbol` and `lexer_next`, followed by
theorems about them.

Modelling conventions.

* A byte (`char`) is a natural number; the buffer `content`/`content_len` is the
  list of its `content_len` bytes, so `content_len` is the length of that list.
* A pointer into the buffer (`token.text`) is the offset it points at.
* A read `l->content[i]` is `l.content[i]?`; the result `none` of a function of
  the embedding stands for a fault: a read at or past `content_len`, or the
  failing `assert` of `lexer_chop_char`.
* `size_t` arithmetic is done in `Nat` (offsets stay below `content_len + 2`).
* A `float` is the integer it equals (every `float` of the lexer is a whole
  number in the embedding): `x` and the advance widths are added as integers,
  while the conversion `(float)line` and the `float` product of `position.y`
  round to the 24 significant bits of the type (`float_round`).
* Every `while` loop of the source consumes one byte per iteration; it is a
  structural recursion on a count of iterations that starts at the number of
  bytes left, `content_len - cursor`, so that the count reaches `0` only when
  the loop condition `cursor < content_len` is false.
-/

namespace Ded

/-! ## Data model -/

/-- Token kinds, in the order of `token_kind_name`; `TOKEN_END` is the value `0`
of a zero-initialised `Token`. -/
inductive Token_Kind where
  | TOKEN_END
  | TOKEN_INVALID
  | TOKEN_PREPROC
  | TOKEN_SYMBOL
  | TOKEN_OPEN_PAREN
  | TOKEN_CLOSE_PAREN
  | TOKEN_OPEN_CURLY
  | TOKEN_CLOSE_CURLY
  | TOKEN_SEMICOLON
  | TOKEN_KEYWORD
  | TOKEN_COMMENT
  | TOKEN_STRING
  deriving DecidableEq, Repr

/-- Languages, the cases of the `switch` in `file_ext_str` and `lexer_next`. -/
inductive File_Extension where
  | FEXT_KOTLIN
  | FEXT_JAVA
  | FEXT_CPP
  | FEXT_PYTHON
  | FEXT_MINICONF
  deriving DecidableEq, Repr

open Token_Kind File_Extension

/-- One entry of the glyph metrics array; only the advance width `ax` is read. -/
structure Glyph_Metric where
  ax : Int
  deriving DecidableEq, Repr

/-- The glyph atlas as the lexer sees it: the array `metrics`. -/
structure Free_Glyph_Atlas where
  metrics : List Glyph_Metric
  deriving DecidableEq, Repr

/-- A pair of coordinates. -/
structure Vec2f where
  x : Int
  y : Int
  deriving DecidableEq, Repr

/-- A token: `text` is the offset of its first byte in the buffer. -/
structure Token where
  kind : Token_Kind
  text : Nat
  text_len : Nat
  position : Vec2f
  deriving DecidableEq, Repr

/-- An entry of the table of fixed literals. -/
structure Literal_Token where
  kind : Token_Kind
  text : List Nat
  deriving DecidableEq, Repr

/-- The lexer state. -/
structure Lexer where
  atlas : Option Free_Glyph_Atlas
  content : List Nat
  cursor : Nat
  line : Nat
  bol : Nat
  x : Int
  file_ext : File_Extension
  file_path : Option (List Nat)
  deriving DecidableEq, Repr

/-- The field `content_len`: the number of bytes of the buffer. -/
@[reducible] def Lexer.content_len (l : Lexer) : Nat := l.content.length

/-- The declarations of `common.h` and `lexer.h` that `lexer.c` uses and that
are not part of the sources at hand: the five keyword tables and two
constants. They are parameters of the embedding. -/
structure Header where
  jKeywords : List (List Nat)
  ktKeywords : List (List Nat)
  pyKeywords : List (List Nat)
  miniconfKeywords : List (List Nat)
  cKeywords : List (List Nat)
  GLYPH_METRICS_CAPACITY : Nat
  FREE_GLYPH_FONT_SIZE : Int
  deriving DecidableEq, Repr

/-- The bytes of a string literal of the source. -/
def bytes (s : String) : List Nat := s.toList.map Char.toNat

/-- Modelled from the spec: the table `literal_tokens` is declared outside
`lexer.c`; the spec (4.1) gives a fixed, ordered table of the single-character
literals `(`, `)`, `{`, `}`, `;` with their kinds. -/
def literal_tokens : List Literal_Token :=
  [ ⟨TOKEN_OPEN_PAREN, [40]⟩,
    ⟨TOKEN_CLOSE_PAREN, [41]⟩,
    ⟨TOKEN_OPEN_CURLY, [123]⟩,
    ⟨TOKEN_CLOSE_CURLY, [125]⟩,
    ⟨TOKEN_SEMICOLON, [59]⟩ ]

/-! ## `<ctype.h>` in the "C" locale -/

/-- The function `isspace`: space, `\t`, `\n`, `\v`, `\f`, `\r`. -/
def isspace (c : Nat) : Bool := c == 32 || (9 ≤ c && c ≤ 13)

/-- The function `isalpha`: `A`..`Z`, `a`..`z`. -/
def isalpha (c : Nat) : Bool := (65 ≤ c && c ≤ 90) || (97 ≤ c && c ≤ 122)

/-- The function `isalnum`: `isalpha` or `0`..`9`. -/
def isalnum (c : Nat) : Bool := isalpha c || (48 ≤ c && c ≤ 57)

/-! ## `float`

The type is IEEE binary32: 24 significant bits, rounding to nearest, ties to
even. Overflow to infinity is not modelled (it needs a magnitude from 2^128
on). -/

/-- The number of low bits that a `float` drops from `n`: the least `e` with
`n / 2^e < 2^24`. The first argument bounds the number of halvings. -/
def excess_bits : Nat → Nat → Nat
  | 0, _ => 0
  | f + 1, n => if n < 2 ^ 24 then 0 else excess_bits f (n / 2) + 1

/-- The natural number `n` rounded to a `float`: to 24 significant bits, to
nearest, ties to the even significand. -/
def float_round (n : Nat) : Nat :=
  let e := excess_bits n n
  if e = 0 then n
  else
    let q := n / 2 ^ e
    let r := n % 2 ^ e
    let half := 2 ^ (e - 1)
    let q := if half < r ∨ (r = half ∧ q % 2 = 1) then q + 1 else q
    q * 2 ^ e

/-- The conversion `(float)n` of a `size_t`. -/
def float_of_size_t (n : Nat) : Int := float_round n

/-- The conversion to `float` of an integer. -/
def float_of_int (z : Int) : Int :=
  if z < 0 then -(float_round z.natAbs : Int) else (float_round z.natAbs : Int)

/-- The product of two `float`s: the exact product, rounded. -/
def float_mul (a b : Int) : Int := float_of_int (a * b)

/-- The expression `-(float)l->line * FREE_GLYPH_FONT_SIZE` of `lexer_next`, for
the value `line` of `l->line`; the constant is an integer, converted to `float`
for the product. -/
def line_y (H : Header) (line : Nat) : Int :=
  float_mul (-(float_of_size_t line)) (float_of_int H.FREE_GLYPH_FONT_SIZE)

/-! ## `lexer_new` -/

/-- The loop of `strrchr`: `i` is the offset of the head of the list, `last` the
offset of the last occurrence seen so far. -/
def strrchr_loop (c : Nat) : List Nat → Nat → Option Nat → Option Nat
  | [], _, last => last
  | b :: bs, i, last => strrchr_loop c bs (i + 1) (if b = c then some i else last)

/-- The function `strrchr`: the offset of the last occurrence of `c` in `s`. -/
def strrchr (s : List Nat) (c : Nat) : Option Nat := strrchr_loop c s 0 none

/-- The function `lexer_new`; `file_path` is `none` for `file_path.items == NULL`. -/
def lexer_new (atlas : Option Free_Glyph_Atlas) (content : List Nat)
    (file_path : Option (List Nat)) : Lexer :=
  let l : Lexer :=
    { atlas := atlas, content := content, cursor := 0, line := 0, bol := 0, x := 0,
      file_ext := FEXT_CPP, file_path := none }
  match file_path with
  | none => l
  | some items =>
    let l := { l with file_path := some items }
    let filename := items
    match strrchr filename 46 with
    | none => l
    | some dot =>
      if dot ≠ 0 then
        let file_ext_str := filename.drop (dot + 1)
        if file_ext_str = bytes "kt" ∨ file_ext_str = bytes "kts" then
          { l with file_ext := FEXT_KOTLIN }
        else if file_ext_str = bytes "py" then
          { l with file_ext := FEXT_PYTHON }
        else if file_ext_str = bytes "java" then
          { l with file_ext := FEXT_JAVA }
        else if file_ext_str = bytes "miniconf" then
          { l with file_ext := FEXT_MINICONF }
        else l
      else l

/-! ## The position tracker -/

/-- The loop of `lexer_starts_with`: compares `pfx[i..]` with the bytes at
`cursor + i`. -/
def lexer_starts_with_loop (l : Lexer) : List Nat → Nat → Option Bool
  | [], _ => some true
  | p :: ps, i =>
    match l.content[l.cursor + i]? with
    | none => none
    | some c => if p ≠ c then some false else lexer_starts_with_loop l ps (i + 1)

/-- The function `lexer_starts_with`. -/
def lexer_starts_with (l : Lexer) (pfx : List Nat) : Option Bool :=
  let prefix_len := pfx.length
  if prefix_len = 0 then some true
  else if l.cursor + prefix_len - 1 ≥ l.content_len then some false
  else lexer_starts_with_loop l pfx 0

/-- The body of the loop of `lexer_chop_char` after its `assert`, for the byte
`x` read at the cursor. The glyph index is the value of the byte. -/
def chop_step (H : Header) (l : Lexer) (x : Nat) : Lexer :=
  let l := { l with cursor := l.cursor + 1 }
  if x = 10 then
    { l with line := l.line + 1, bol := l.cursor, x := 0 }
  else
    match l.atlas with
    | some atlas =>
      let glyph_index := x
      let glyph_index := if glyph_index ≥ H.GLYPH_METRICS_CAPACITY then 63 else glyph_index
      let metric := atlas.metrics.getD glyph_index ⟨0⟩
      { l with x := l.x + metric.ax }
    | none => l

/-- The function `lexer_chop_char`; `none` when the `assert` fails. -/
def lexer_chop_char (H : Header) : Lexer → Nat → Option Lexer
  | l, 0 => some l
  | l, len + 1 =>
    if l.cursor < l.content_len then
      match l.content[l.cursor]? with
      | none => none
      | some x => lexer_chop_char H (chop_step H l x) len
    else none

/-- The `while` loops of `lexer.c` all have the shape
`while (l->cursor < l->content_len && p(l->content[l->cursor])) lexer_chop_char(l, 1);`
this is that loop, for the condition `p` and a count of iterations. -/
def lexer_chop_while (H : Header) (p : Nat → Bool) : Nat → Lexer → Option Lexer
  | 0, l => some l
  | n + 1, l =>
    if l.cursor < l.content_len then
      match l.content[l.cursor]? with
      | none => none
      | some c =>
        if p c then (lexer_chop_char H l 1).bind (lexer_chop_while H p n)
        else some l
    else some l

/-- The function `lexer_trim_left`. -/
def lexer_trim_left (H : Header) (l : Lexer) : Option Lexer :=
  lexer_chop_while H isspace (l.content_len - l.cursor) l

/-- The function `is_symbol_start`. -/
def is_symbol_start (x : Nat) : Bool := isalpha x || x == 95

/-- The function `is_symbol`. -/
def is_symbol (x : Nat) : Bool := isalnum x || x == 95

/-! ## `lexer_next` -/

/-- The loop over `literal_tokens` in `lexer_next`: the outer `none` is a fault,
the inner `none` means that no literal matched. -/
def lexer_next_literals (H : Header) (l : Lexer) (token : Token) :
    List Literal_Token → Option (Option (Token × Lexer))
  | [] => some none
  | lt :: rest =>
    (lexer_starts_with l lt.text).bind fun b =>
      if b then
        let text_len := lt.text.length
        let token := { token with kind := lt.kind, text_len := text_len }
        (lexer_chop_char H l text_len).bind fun l => some (some (token, l))
      else lexer_next_literals H l token rest

/-- The identifier loop of `lexer_next`:
`while (cursor < content_len && is_symbol(content[cursor])) { chop; text_len += 1; }`. -/
def lexer_next_symbol_loop (H : Header) : Nat → Lexer → Token → Option (Token × Lexer)
  | 0, l, token => some (token, l)
  | n + 1, l, token =>
    if l.cursor < l.content_len then
      match l.content[l.cursor]? with
      | none => none
      | some c =>
        if is_symbol c then
          (lexer_chop_char H l 1).bind fun l =>
            lexer_next_symbol_loop H n l { token with text_len := token.text_len + 1 }
        else some (token, l)
    else some (token, l)

/-- The `switch (l->file_ext)` of `lexer_next` that selects the keyword table. -/
def keywords_of (H : Header) : File_Extension → List (List Nat)
  | FEXT_JAVA => H.jKeywords
  | FEXT_KOTLIN => H.ktKeywords
  | FEXT_PYTHON => H.pyKeywords
  | FEXT_MINICONF => H.miniconfKeywords
  | _ => H.cKeywords

/-- The test `memcmp(keyword, text, keyword_len) == 0`, the second argument
being the bytes of the buffer from offset `i` on. -/
def memcmp_zero (content : List Nat) : List Nat → Nat → Option Bool
  | [], _ => some true
  | k :: ks, i =>
    match content[i]? with
    | none => none
    | some c => if k ≠ c then some false else memcmp_zero content ks (i + 1)

/-- The loop over the keyword table in `lexer_next`. -/
def lexer_next_keywords (l : Lexer) (token : Token) : List (List Nat) → Option Token
  | [] => some token
  | kw :: rest =>
    let keyword_len := kw.length
    if keyword_len = token.text_len then
      (memcmp_zero l.content kw token.text).bind fun z =>
        if z then some { token with kind := TOKEN_KEYWORD }
        else lexer_next_keywords l token rest
    else lexer_next_keywords l token rest

/-- The tail shared by the directive and the comment branch of `lexer_next`:
consume up to a newline, then one more byte if there is one. -/
def lexer_next_line (H : Header) (l : Lexer) (token : Token) : Option (Token × Lexer) :=
  (lexer_chop_while H (fun c => c != 10) (l.content_len - l.cursor) l).bind fun l =>
  (if l.cursor < l.content_len then lexer_chop_char H l 1 else some l).bind fun l =>
  some ({ token with text_len := l.cursor - token.text }, l)

/-- The function `lexer_next`: the token and the lexer state after the call. -/
def lexer_next (H : Header) (l : Lexer) : Option (Token × Lexer) :=
  (lexer_trim_left H l).bind fun l =>
  let token : Token :=
    { kind := TOKEN_END, text := l.cursor, text_len := 0,
      position := ⟨l.x, line_y H l.line⟩ }
  if l.cursor ≥ l.content_len then some (token, l)
  else
    (l.content[l.cursor]?).bind fun c =>
    if c = 34 then
      let token := { token with kind := TOKEN_STRING }
      (lexer_chop_char H l 1).bind fun l =>
      (lexer_chop_while H (fun c => c != 34 && c != 10) (l.content_len - l.cursor) l).bind fun l =>
      (if l.cursor < l.content_len then lexer_chop_char H l 1 else some l).bind fun l =>
      some ({ token with text_len := l.cursor - token.text }, l)
    else if c = 35 then
      lexer_next_line H l { token with kind := TOKEN_PREPROC }
    else
      (lexer_starts_with l [47, 47]).bind fun b =>
      if b then
        lexer_next_line H l { token with kind := TOKEN_COMMENT }
      else
        (lexer_next_literals H l token literal_tokens).bind fun r =>
        match r with
        | some res => some res
        | none =>
          if is_symbol_start c then
            let token := { token with kind := TOKEN_SYMBOL }
            (lexer_next_symbol_loop H (l.content_len - l.cursor) l token).bind fun (token, l) =>
            (lexer_next_keywords l token (keywords_of H l.file_ext)).bind fun token =>
            some (token, l)
          else
            (lexer_chop_char H l 1).bind fun l =>
            some ({ token with kind := TOKEN_INVALID, text_len := 1 }, l)

/-! ## Scanning a buffer -/

/-- The first `n` calls of `lexer_next`: the tokens they return, in order, and
the state after the last of them. -/
def lexer_run (H : Header) : Nat → Lexer → Option (List Token × Lexer)
  | 0, l => some ([], l)
  | n + 1, l =>
    (lexer_next H l).bind fun (t, l) =>
    (lexer_run H n l).bind fun (ts, l) => some (t :: ts, l)

/-- The caller's loop: call `lexer_next` until it returns a token of kind
`TOKEN_END`, at most `n` times; the tokens returned, the end token included.
The result is `none` on a fault and when `n` calls do not reach the end. -/
def lexer_scan (H : Header) : Nat → Lexer → Option (List Token)
  | 0, _ => none
  | n + 1, l =>
    (lexer_next H l).bind fun (t, l) =>
    if t.kind = TOKEN_END then some [t]
    else (lexer_scan H n l).bind fun ts => some (t :: ts)

/-- The slice `content[off, off + len)`. -/
def slice (content : List Nat) (off len : Nat) : List Nat := (content.drop off).take len

/-- The text of a token of the buffer `content`. -/
def Token.bytes_in (content : List Nat) (t : Token) : List Nat := slice content t.text t.text_len

/-- Whether the byte at offset `i` belongs to the text of the token. -/
def Token.covers (t : Token) (i : Nat) : Bool :=
  decide (t.text ≤ i) && decide (i < t.text + t.text_len)

/-- The tokens `toks` tile the buffer from offset `pos` on: each starts at or
after the end of the one before (`pos` for the first), ends inside the buffer,
and every byte in the gap before it is whitespace, as is every byte after the
last token. -/
def tiles (content : List Nat) : Nat → List Token → Prop
  | pos, [] =>
    pos ≤ content.length ∧
      ∀ i, pos ≤ i → i < content.length → isspace (content.getD i 0) = true
  | pos, t :: ts =>
    pos ≤ t.text ∧ (∀ i, pos ≤ i → i < t.text → isspace (content.getD i 0) = true) ∧
      t.text + t.text_len ≤ content.length ∧ tiles content (t.text + t.text_len) ts

/-- The buffer with every byte deleted that lies outside the texts of `toks`. -/
def kept_bytes (content : List Nat) (toks : List Token) : List Nat :=
  ((List.range content.length).filter fun i => toks.any fun t => t.covers i).map
    fun i => content.getD i 0

/-- A header for concrete evaluations: a few keywords per language, capacity 128
and line height 64. -/
def exampleHeader : Header :=
  { jKeywords := [bytes "class", bytes "int"],
    ktKeywords := [bytes "fun", bytes "val"],
    pyKeywords := [bytes "def", bytes "pass"],
    miniconfKeywords := [bytes "set"],
    cKeywords := [bytes "if", bytes "int", bytes "return", bytes "while"],
    GLYPH_METRICS_CAPACITY := 128,
    FREE_GLYPH_FONT_SIZE := 64 }

/-! ## Reference description of one call

The definitions below do not come from the source: they describe, on the list
of bytes left, what a call of `lexer_next` does, and are related to the
embedding by `lexer_next_eq`. -/

/-- The state after consuming `n` bytes, each with the loop body of
`lexer_chop_char`. -/
def advance (H : Header) : Lexer → Nat → Lexer
  | l, 0 => l
  | l, n + 1 => advance H (chop_step H l (l.content.getD l.cursor 0)) n

/-- The bytes from the cursor to the end of the buffer. -/
def Lexer.rest (l : Lexer) : List Nat := l.content.drop l.cursor

/-- The number of leading whitespace bytes. -/
def ws_len (r : List Nat) : Nat := (r.takeWhile isspace).length

/-- The length of a line-like lexeme of `r`: up to and including the first byte
that fails `p`, or all of `r` when every byte passes. -/
def through_len (p : Nat → Bool) (r : List Nat) : Nat :=
  (r.takeWhile p).length + (if (r.takeWhile p).length < r.length then 1 else 0)

/-- The kind of a one-byte literal, if the byte is one. -/
def literal_kind (c : Nat) : Option Token_Kind :=
  if c = 40 then some TOKEN_OPEN_PAREN
  else if c = 41 then some TOKEN_CLOSE_PAREN
  else if c = 123 then some TOKEN_OPEN_CURLY
  else if c = 125 then some TOKEN_CLOSE_CURLY
  else if c = 59 then some TOKEN_SEMICOLON
  else none

/-- The kind and the length of the lexeme at the head of `r`, a list of bytes
that does not start with whitespace, for the keyword table `kws`. -/
def classify (kws : List (List Nat)) : List Nat → Token_Kind × Nat
  | [] => (TOKEN_END, 0)
  | c :: r =>
    if c = 34 then (TOKEN_STRING, 1 + through_len (fun b => b != 34 && b != 10) r)
    else if c = 35 then (TOKEN_PREPROC, through_len (fun b => b != 10) (c :: r))
    else if c = 47 ∧ r.head? = some 47 then (TOKEN_COMMENT, through_len (fun b => b != 10) (c :: r))
    else match literal_kind c with
      | some k => (k, 1)
      | none =>
        if is_symbol_start c then
          (if (c :: r).takeWhile is_symbol ∈ kws then TOKEN_KEYWORD else TOKEN_SYMBOL,
            ((c :: r).takeWhile is_symbol).length)
        else (TOKEN_INVALID, 1)

/-- The bytes from the first byte at or after the cursor that is not whitespace
to the end of the buffer. -/
def Lexer.lexeme_rest (l : Lexer) : List Nat := l.rest.dropWhile isspace

/-- The token that a call returns according to `classify`. -/
def next_token (H : Header) (l : Lexer) : Token :=
  let l1 := advance H l (ws_len l.rest)
  let kn := classify (keywords_of H l.file_ext) l.lexeme_rest
  { kind := kn.1, text := l.cursor + ws_len l.rest, text_len := kn.2,
    position := ⟨l1.x, line_y H l1.line⟩ }

/-- The state after a call according to `classify`. -/
def next_state (H : Header) (l : Lexer) : Lexer :=
  advance H l (ws_len l.rest + (classify (keywords_of H l.file_ext) l.lexeme_rest).2)

/-- The call `lexer_next H l` returns a token of kind `k` whose text is the bytes
`text`, starting at the first byte at or after the cursor that is not
whitespace, and leaves the cursor just after that text, in the same buffer. -/
def lexer_next_yields (H : Header) (l : Lexer) (k : Token_Kind) (text : List Nat) : Prop :=
  ∃ tok l2, lexer_next H l = some (tok, l2) ∧ tok.kind = k ∧
    tok.text = l.cursor + ws_len l.rest ∧ tok.text_len = text.length ∧
    tok.bytes_in l.content = text ∧ l2.cursor = tok.text + tok.text_len ∧
    l2.content = l.content

/-- The kinds, offsets and lengths of the tokens of a scan, computed by
`classify` on the list `r` of the bytes from offset `off` on. -/
def ref_scan (kws : List (List Nat)) : Nat → Nat → List Nat → Option (List (Token_Kind × Nat × Nat))
  | 0, _, _ => none
  | n + 1, off, r =>
    let w := ws_len r
    let kn := classify kws (r.dropWhile isspace)
    if kn.1 = TOKEN_END then some [(TOKEN_END, off + w, 0)]
    else (ref_scan kws n (off + w + kn.2) (r.drop (w + kn.2))).bind fun ts =>
      some ((kn.1, off + w, kn.2) :: ts)

/-- The kind, the offset and the length of a token. -/
def Token.shape (t : Token) : Token_Kind × Nat × Nat := (t.kind, t.text, t.text_len)

/-- The text that the claim on string literals gives the token, `r` being the
bytes after the opening quote: the quote, the bytes before the next quote or
newline, and the closing quote only when it is a quote that was found. -/
def string_text_as_claimed (r : List Nat) : List Nat :=
  34 :: r.takeWhile (fun b => b != 34 && b != 10) ++
    (if (r.dropWhile (fun b => b != 34 && b != 10)).head? = some 34 then [34] else [])

/-- The string rule as the claim states it. -/
def string_rule_as_claimed (H : Header) (l : Lexer) : Prop :=
  ∀ r, l.lexeme_rest = 34 :: r → lexer_next_yields H l TOKEN_STRING (string_text_as_claimed r)

/-- The claim on the end-of-content case as it is stated: a call that returns
the end token leaves the cursor where it was. -/
def end_keeps_cursor_as_claimed (H : Header) (l : Lexer) : Prop :=
  ∀ tok l2, lexer_next H l = some (tok, l2) → tok.kind = TOKEN_END → l2.cursor = l.cursor

/-- The advance width that the atlas gives the byte `b`: the width of `?` when
the index of the byte is at or beyond the capacity. -/
def glyph_advance (H : Header) (atlas : Free_Glyph_Atlas) (b : Nat) : Int :=
  (atlas.metrics.getD (if b ≥ H.GLYPH_METRICS_CAPACITY then 63 else b) ⟨0⟩).ax

/-- The sum, from left to right and starting at zero, of the advance widths of
the bytes `bs`. -/
def advance_sum (H : Header) (atlas : Free_Glyph_Atlas) (bs : List Nat) : Int :=
  bs.foldl (fun acc b => acc + glyph_advance H atlas b) 0

/-- The fields `line` and `bol` are those derived from the buffer and the
cursor: `line` is the number of newline bytes in `content[0, cursor)`, and `bol`
is the offset just after the last of them, or `0` when there is none. -/
def line_tracked (l : Lexer) : Prop :=
  l.line = (l.content.take l.cursor).count 10 ∧
    l.bol ≤ l.cursor ∧
    (l.bol = 0 ∨ l.content[l.bol - 1]? = some 10) ∧
    ∀ i, l.bol ≤ i → i < l.cursor → l.content[i]? ≠ some 10

/-- The field `x` is the one derived from the buffer, the cursor and `bol`: the
sum of the advance widths of `content[bol, cursor)` with an atlas, zero
without. -/
def x_tracked (H : Header) (l : Lexer) : Prop :=
  (∀ atlas, l.atlas = some atlas →
    l.x = advance_sum H atlas (slice l.content l.bol (l.cursor - l.bol))) ∧
  (l.atlas = none → l.x = 0)

/-- Two tokens have the same offset, length and position, and the same kind
unless both are identifiers (one a keyword where the other is a symbol). -/
def same_span (t u : Token) : Prop :=
  t.text = u.text ∧ t.text_len = u.text_len ∧ t.position = u.position ∧
    (t.kind = u.kind ∨
      ((t.kind = TOKEN_SYMBOL ∨ t.kind = TOKEN_KEYWORD) ∧
        (u.kind = TOKEN_SYMBOL ∨ u.kind = TOKEN_KEYWORD)))

/-- The lexer `l` with another language and path. -/
def Lexer.with_language (l : Lexer) (e : File_Extension) (p : Option (List Nat)) : Lexer :=
  { l with file_ext := e, file_path := p }

/-- The claim on `position.y` as it is stated, for the scan of a buffer from a
fresh lexer: the `position.y` of every token is minus the line height times the
number of newline bytes before its first byte. -/
def token_y_as_claimed (H : Header) (atlas : Option Free_Glyph_Atlas) (content : List Nat)
    (file_path : Option (List Nat)) : Prop :=
  ∀ n toks lN, lexer_run H n (lexer_new atlas content file_path) = some (toks, lN) →
    ∀ t ∈ toks,
      t.position.y =
        -(H.FREE_GLYPH_FONT_SIZE * (((content.take t.text).count 10 : Nat) : Int))

/-! ## Lemmas on the position tracker -/

@[simp] theorem chop_step_cursor (H : Header) (l : Lexer) (x : Nat) :
    (chop_step H l x).cursor = l.cursor + 1 := by
  unfold chop_step
  by_cases hx : x = 10
  · simp [hx]
  · cases ha : l.atlas <;> simp [hx, ha]

@[simp] theorem chop_step_content (H : Header) (l : Lexer) (x : Nat) :
    (chop_step H l x).content = l.content := by
  unfold chop_step
  by_cases hx : x = 10
  · simp [hx]
  · cases ha : l.atlas <;> simp [hx, ha]

@[simp] theorem chop_step_file_ext (H : Header) (l : Lexer) (x : Nat) :
    (chop_step H l x).file_ext = l.file_ext := by
  unfold chop_step
  by_cases hx : x = 10
  · simp [hx]
  · cases ha : l.atlas <;> simp [hx, ha]

@[simp] theorem chop_step_atlas (H : Header) (l : Lexer) (x : Nat) :
    (chop_step H l x).atlas = l.atlas := by
  unfold chop_step
  by_cases hx : x = 10
  · simp [hx]
  · cases ha : l.atlas <;> simp [hx, ha]

@[simp] theorem advance_zero (H : Header) (l : Lexer) : advance H l 0 = l := rfl

theorem advance_succ (H : Header) (l : Lexer) (n : Nat) :
    advance H l (n + 1) = advance H (chop_step H l (l.content.getD l.cursor 0)) n := rfl

@[simp] theorem advance_cursor (H : Header) (l : Lexer) (n : Nat) :
    (advance H l n).cursor = l.cursor + n := by
  induction n generalizing l with
  | zero => rfl
  | succ n ih => rw [advance_succ, ih, chop_step_cursor]; omega

@[simp] theorem advance_content (H : Header) (l : Lexer) (n : Nat) :
    (advance H l n).content = l.content := by
  induction n generalizing l with
  | zero => rfl
  | succ n ih => rw [advance_succ, ih, chop_step_content]

@[simp] theorem advance_file_ext (H : Header) (l : Lexer) (n : Nat) :
    (advance H l n).file_ext = l.file_ext := by
  induction n generalizing l with
  | zero => rfl
  | succ n ih => rw [advance_succ, ih, chop_step_file_ext]

@[simp] theorem advance_atlas (H : Header) (l : Lexer) (n : Nat) :
    (advance H l n).atlas = l.atlas := by
  induction n generalizing l with
  | zero => rfl
  | succ n ih => rw [advance_succ, ih, chop_step_atlas]

theorem advance_add (H : Header) (l : Lexer) (a b : Nat) :
    advance H l (a + b) = advance H (advance H l a) b := by
  induction a generalizing l with
  | zero => simp
  | succ a ih => rw [Nat.add_right_comm, advance_succ, ih, advance_succ]

theorem advance_rest (H : Header) (l : Lexer) (n : Nat) :
    (advance H l n).rest = l.rest.drop n := by
  simp [Lexer.rest, List.drop_drop, Nat.add_comm]

theorem rest_length (l : Lexer) : l.rest.length = l.content_len - l.cursor := by
  simp [Lexer.rest]

theorem rest_cons_of_lt (l : Lexer) (h : l.cursor < l.content_len) :
    ∃ c, l.content[l.cursor]? = some c ∧ l.content.getD l.cursor 0 = c ∧
      l.rest = c :: (l.content.drop (l.cursor + 1)) := by
  have h2 : l.cursor < l.content.length := h
  refine ⟨l.content[l.cursor], ?_, ?_, ?_⟩
  · simp [List.getElem?_eq_getElem h2]
  · simp [List.getD, List.getElem?_eq_getElem h2]
  · show l.content.drop l.cursor = _
    exact List.drop_eq_getElem_cons h2

theorem lexer_chop_char_eq (H : Header) (l : Lexer) (n : Nat)
    (h : l.cursor + n ≤ l.content_len) : lexer_chop_char H l n = some (advance H l n) := by
  induction n generalizing l with
  | zero => rfl
  | succ n ih =>
    have hlt : l.cursor < l.content_len := by omega
    obtain ⟨c, hc, hd, -⟩ := rest_cons_of_lt l hlt
    rw [lexer_chop_char, if_pos hlt, hc, advance_succ, hd]
    apply ih
    simp only [chop_step_cursor, Lexer.content_len, chop_step_content]
    simp only [Lexer.content_len] at h
    omega

theorem lexer_chop_while_eq (H : Header) (p : Nat → Bool) (n : Nat) (l : Lexer)
    (h : l.content_len - l.cursor ≤ n) :
    lexer_chop_while H p n l = some (advance H l (l.rest.takeWhile p).length) := by
  induction n generalizing l with
  | zero =>
    have : l.rest = [] := by
      apply List.eq_nil_of_length_eq_zero; rw [rest_length]; omega
    simp [lexer_chop_while, this]
  | succ n ih =>
    rw [lexer_chop_while]
    by_cases hlt : l.cursor < l.content_len
    · obtain ⟨c, hc, hd, hr⟩ := rest_cons_of_lt l hlt
      rw [if_pos hlt, hc]
      by_cases hp : p c = true
      · have h1 : lexer_chop_char H l 1 = some (advance H l 1) :=
          lexer_chop_char_eq H l 1 (by omega)
        simp only [hp, if_true, h1, Option.some_bind]
        rw [ih]
        · rw [advance_rest, hr, List.takeWhile_cons_of_pos hp, List.length_cons,
            List.drop_one, List.tail_cons]
          generalize (List.takeWhile p (List.drop (l.cursor + 1) l.content)).length = k
          rw [Nat.add_comm k 1, advance_add]
        · simp only [Lexer.content_len, advance_content, advance_cursor]
          simp only [Lexer.content_len] at h
          omega
      · simp [hp, hr]
    · have : l.rest = [] := by
        apply List.eq_nil_of_length_eq_zero; rw [rest_length]; omega
      simp [hlt, this]

/-! ## Lemmas on the branches of `lexer_next` -/

theorem lexer_starts_with_loop_eq (l : Lexer) (ps : List Nat) (i : Nat)
    (h : l.cursor + i + ps.length ≤ l.content_len) :
    lexer_starts_with_loop l ps i = some (ps.isPrefixOf (l.content.drop (l.cursor + i))) := by
  induction ps generalizing i with
  | nil => simp [lexer_starts_with_loop]
  | cons p ps ih =>
    simp only [List.length_cons, Lexer.content_len] at h
    have hlt : l.cursor + i < l.content.length := by omega
    rw [lexer_starts_with_loop, List.getElem?_eq_getElem hlt, List.drop_eq_getElem_cons hlt]
    simp only [List.isPrefixOf]
    by_cases hp : p = l.content[l.cursor + i]
    · have := ih (i + 1) (by simp only [Lexer.content_len]; omega)
      simp [hp, this, Nat.add_assoc]
    · simp [hp]

theorem lexer_starts_with_eq (l : Lexer) (pfx : List Nat) :
    lexer_starts_with l pfx = some (pfx.isPrefixOf l.rest) := by
  unfold lexer_starts_with
  by_cases h0 : pfx.length = 0
  · have : pfx = [] := List.eq_nil_of_length_eq_zero h0
    simp [this]
  · simp only [h0, if_false]
    by_cases h1 : l.cursor + pfx.length - 1 ≥ l.content_len
    · simp only [h1, if_true]
      have hlen : l.rest.length < pfx.length := by
        rw [rest_length]; omega
      have : pfx.isPrefixOf l.rest = false := by
        cases hb : pfx.isPrefixOf l.rest with
        | false => rfl
        | true =>
          have := (List.isPrefixOf_iff_prefix.mp hb).length_le
          omega
      rw [this]
    · simp only [h1, if_false]
      have := lexer_starts_with_loop_eq l pfx 0 (by omega)
      simpa [Lexer.rest] using this

theorem takeWhile_length_le (p : Nat → Bool) (r : List Nat) :
    (r.takeWhile p).length ≤ r.length :=
  (List.takeWhile_sublist p).length_le

theorem through_len_le (p : Nat → Bool) (r : List Nat) : through_len p r ≤ r.length := by
  unfold through_len
  have := takeWhile_length_le p r
  split <;> omega

theorem take_takeWhile_length (p : Nat → Bool) (r : List Nat) :
    r.take (r.takeWhile p).length = r.takeWhile p := by
  induction r with
  | nil => rfl
  | cons a r ih =>
    by_cases h : p a = true
    · simp [List.takeWhile_cons_of_pos h, ih]
    · simp [List.takeWhile_cons_of_neg h]

/-- The two steps that end the string, directive and comment branches: the
loop up to a byte that fails `p`, then one more byte if there is one. -/
theorem through_eq (H : Header) (p : Nat → Bool) (l : Lexer) (n : Nat)
    (h : l.content_len - l.cursor ≤ n) :
    ((lexer_chop_while H p n l).bind fun l2 =>
      (if l2.cursor < l2.content_len then lexer_chop_char H l2 1 else some l2)) =
      some (advance H l (through_len p l.rest)) := by
  rw [lexer_chop_while_eq H p n l h, Option.some_bind]
  have hle := takeWhile_length_le p l.rest
  rw [rest_length] at hle
  unfold through_len
  by_cases hlt : (l.rest.takeWhile p).length < l.rest.length
  · have hlt2 := hlt
    rw [rest_length] at hlt2
    have : (advance H l (l.rest.takeWhile p).length).cursor
        < (advance H l (l.rest.takeWhile p).length).content_len := by
      simp only [advance_cursor, Lexer.content_len, advance_content]
      simp only [Lexer.content_len] at hlt2
      omega
    rw [if_pos this, if_pos hlt, lexer_chop_char_eq, advance_add]
    simp only [advance_cursor, Lexer.content_len, advance_content]
    simp only [Lexer.content_len] at hlt2
    omega
  · have hlt2 := hlt
    rw [rest_length] at hlt2
    have : ¬ (advance H l (l.rest.takeWhile p).length).cursor
        < (advance H l (l.rest.takeWhile p).length).content_len := by
      simp only [advance_cursor, Lexer.content_len, advance_content]
      simp only [Lexer.content_len] at hlt2
      omega
    rw [if_neg this, if_neg hlt, Nat.add_zero]

theorem lexer_next_line_eq (H : Header) (l : Lexer) (token : Token)
    (ht : token.text = l.cursor) :
    lexer_next_line H l token =
      some ({ token with text_len := through_len (fun c => c != 10) l.rest },
        advance H l (through_len (fun c => c != 10) l.rest)) := by
  unfold lexer_next_line
  rw [← Option.bind_assoc, through_eq H _ l _ (Nat.le_refl _)]
  simp [ht]

theorem lexer_next_symbol_loop_eq (H : Header) (n : Nat) (l : Lexer) (token : Token)
    (h : l.content_len - l.cursor ≤ n) :
    lexer_next_symbol_loop H n l token =
      some ({ token with text_len := token.text_len + (l.rest.takeWhile is_symbol).length },
        advance H l (l.rest.takeWhile is_symbol).length) := by
  induction n generalizing l token with
  | zero =>
    have : l.rest = [] := by
      apply List.eq_nil_of_length_eq_zero; rw [rest_length]; omega
    simp [lexer_next_symbol_loop, this]
  | succ n ih =>
    rw [lexer_next_symbol_loop]
    by_cases hlt : l.cursor < l.content_len
    · obtain ⟨c, hc, hd, hr⟩ := rest_cons_of_lt l hlt
      rw [if_pos hlt, hc]
      by_cases hp : is_symbol c = true
      · have h1 : lexer_chop_char H l 1 = some (advance H l 1) :=
          lexer_chop_char_eq H l 1 (by omega)
        simp only [hp, if_true, h1, Option.some_bind]
        rw [ih]
        · rw [advance_rest, hr, List.takeWhile_cons_of_pos hp, List.length_cons,
            List.drop_one, List.tail_cons]
          generalize (List.takeWhile is_symbol (List.drop (l.cursor + 1) l.content)).length = k
          rw [Nat.add_comm k 1, advance_add, Nat.add_assoc]
        · simp only [Lexer.content_len, advance_content, advance_cursor]
          simp only [Lexer.content_len] at h
          omega
      · simp [hp, hr]
    · have : l.rest = [] := by
        apply List.eq_nil_of_length_eq_zero; rw [rest_length]; omega
      simp [hlt, this]

theorem memcmp_zero_eq (content : List Nat) (kw : List Nat) (i : Nat)
    (h : i + kw.length ≤ content.length) :
    memcmp_zero content kw i = some (decide (kw = slice content i kw.length)) := by
  induction kw generalizing i with
  | nil => simp [memcmp_zero, slice]
  | cons k ks ih =>
    simp only [List.length_cons] at h
    have hlt : i < content.length := by omega
    rw [memcmp_zero, List.getElem?_eq_getElem hlt]
    have hs : slice content i (ks.length + 1) = content[i] :: slice content (i + 1) ks.length := by
      unfold slice
      rw [List.drop_eq_getElem_cons hlt, List.take_succ_cons]
    simp only [List.length_cons, hs]
    by_cases hk : k = content[i]
    · have := ih (i + 1) (by omega)
      simp [hk, this]
    · simp [hk]

theorem lexer_next_keywords_eq (l : Lexer) (token : Token) (kws : List (List Nat))
    (h : token.text + token.text_len ≤ l.content_len) :
    lexer_next_keywords l token kws =
      some (if slice l.content token.text token.text_len ∈ kws
        then { token with kind := TOKEN_KEYWORD } else token) := by
  induction kws with
  | nil => simp [lexer_next_keywords]
  | cons kw rest ih =>
    rw [lexer_next_keywords]
    by_cases hl : kw.length = token.text_len
    · rw [if_pos hl, memcmp_zero_eq l.content kw token.text (by rw [hl]; exact h)]
      rw [hl, Option.some_bind]
      by_cases he : kw = slice l.content token.text token.text_len
      · simp [he]
      · have he2 : ¬ slice l.content token.text token.text_len = kw := fun h => he h.symm
        simp [he, he2, ih]
    · have he2 : ¬ slice l.content token.text token.text_len = kw := by
        intro he
        apply hl
        rw [← he]
        simp only [slice, List.length_take, List.length_drop]
        simp only [Lexer.content_len] at h
        omega
      simp [hl, he2, ih]

theorem lexer_next_literals_eq (H : Header) (l : Lexer) (token : Token) (c : Nat)
    (r : List Nat) (hr : l.rest = c :: r) :
    lexer_next_literals H l token literal_tokens =
      some (match literal_kind c with
        | some k => some ({ token with kind := k, text_len := 1 }, advance H l 1)
        | none => none) := by
  have hlt : l.cursor + 1 ≤ l.content_len := by
    have := rest_length l
    rw [hr] at this
    simp only [List.length_cons] at this
    omega
  have h1 := lexer_chop_char_eq H l 1 hlt
  simp only [literal_tokens, lexer_next_literals, lexer_starts_with_eq, hr, List.isPrefixOf,
    Option.some_bind, List.length_singleton, h1, literal_kind, Bool.and_true]
  by_cases h40 : c = 40
  · simp [h40]
  by_cases h41 : c = 41
  · simp [h41]
  by_cases h123 : c = 123
  · simp [h123]
  by_cases h125 : c = 125
  · simp [h125]
  by_cases h59 : c = 59
  · simp [h59]
  have e40 : ¬ 40 = c := fun h => h40 h.symm
  have e41 : ¬ 41 = c := fun h => h41 h.symm
  have e123 : ¬ 123 = c := fun h => h123 h.symm
  have e125 : ¬ 125 = c := fun h => h125 h.symm
  have e59 : ¬ 59 = c := fun h => h59 h.symm
  simp [h40, h41, h123, h125, h59, e40, e41, e123, e125, e59]

theorem drop_takeWhile_length (p : Nat → Bool) (r : List Nat) :
    r.drop (r.takeWhile p).length = r.dropWhile p := by
  induction r with
  | nil => rfl
  | cons a r ih =>
    by_cases h : p a = true
    · simp [List.takeWhile_cons_of_pos h, List.dropWhile_cons_of_pos h, ih]
    · simp [List.takeWhile_cons_of_neg h, List.dropWhile_cons_of_neg h]

theorem lexeme_rest_eq_drop (l : Lexer) : l.lexeme_rest = l.rest.drop (ws_len l.rest) :=
  (drop_takeWhile_length isspace l.rest).symm

theorem lexeme_rest_eq (H : Header) (l : Lexer) :
    (advance H l (ws_len l.rest)).rest = l.lexeme_rest := by
  rw [advance_rest, lexeme_rest_eq_drop]

/-- One call of `lexer_next` returns, and returns the token and the state of the
reference description. -/
theorem lexer_next_eq (H : Header) (l : Lexer) :
    lexer_next H l = some (next_token H l, next_state H l) := by
  unfold lexer_next lexer_trim_left
  rw [lexer_chop_while_eq H isspace _ l (Nat.le_refl _), Option.some_bind]
  have hrest := lexeme_rest_eq H l
  unfold next_token next_state
  simp only []
  rw [show (l.rest.takeWhile isspace).length = ws_len l.rest from rfl]
  generalize hl1 : advance H l (ws_len l.rest) = l1 at *
  have hcur : l1.cursor = l.cursor + ws_len l.rest := by rw [← hl1, advance_cursor]
  have hext : l1.file_ext = l.file_ext := by rw [← hl1, advance_file_ext]
  have hlen := rest_length l1
  cases hlr : l.lexeme_rest with
  | nil =>
    rw [hlr] at hrest
    rw [hrest] at hlen
    have hge : l1.cursor ≥ l1.content_len := by
      simp only [List.length_nil] at hlen; omega
    rw [if_pos hge]
    simp only [classify, Nat.add_zero, hl1, hcur]
  | cons c r =>
    rw [hlr] at hrest
    rw [hrest] at hlen
    simp only [List.length_cons] at hlen
    have hlt : l1.cursor < l1.content_len := by omega
    obtain ⟨c1, hc1, -, hr1⟩ := rest_cons_of_lt l1 hlt
    have hcc : c1 = c := by
      rw [hrest] at hr1; exact (List.cons.inj hr1).1.symm
    subst hcc
    have hch1 := lexer_chop_char_eq H l1 1 (by omega)
    have hr' : (advance H l1 1).rest = r := by
      rw [advance_rest, hrest]; rfl
    rw [if_neg (by omega), hc1, Option.some_bind, advance_add, hl1, ← hcur, hext.symm]
    by_cases h34 : c1 = 34
    · subst h34
      rw [if_pos rfl, hch1, Option.some_bind, ← Option.bind_assoc,
        through_eq H _ (advance H l1 1) _ (Nat.le_refl _), Option.some_bind, hr',
        ← advance_add]
      simp only [classify, if_true, advance_cursor]
      congr 3
      omega
    rw [if_neg h34]
    by_cases h35 : c1 = 35
    · subst h35
      rw [if_pos rfl, lexer_next_line_eq H l1 _ rfl, hrest]
      simp [classify]
    rw [if_neg h35, lexer_starts_with_eq, hrest, Option.some_bind]
    by_cases h47 : c1 = 47 ∧ r.head? = some 47
    · obtain ⟨h47a, h47b⟩ := h47
      subst h47a
      obtain ⟨r2, rfl⟩ : ∃ r2, r = 47 :: r2 := by
        cases r with
        | nil => simp at h47b
        | cons a r2 => simp at h47b; exact ⟨r2, by rw [h47b]⟩
      have hp : List.isPrefixOf [47, 47] (47 :: 47 :: r2) = true := by
        simp [List.isPrefixOf]
      rw [hp, if_pos rfl, lexer_next_line_eq H l1 _ rfl, hrest]
      simp [classify]
    have hp : List.isPrefixOf [47, 47] (c1 :: r) = false := by
      cases r with
      | nil => simp [List.isPrefixOf]
      | cons a r2 =>
        simp only [List.head?_cons, Option.some.injEq] at h47
        simp [List.isPrefixOf]
        intro h1 h2
        exact h47 ⟨h1.symm, h2.symm⟩
    rw [hp, if_neg (by simp), lexer_next_literals_eq H l1 _ c1 r hrest, Option.some_bind]
    cases hlk : literal_kind c1 with
    | some k =>
      simp [classify, h34, h35, h47, hlk]
    | none =>
      simp only []
      by_cases hs : is_symbol_start c1 = true
      · rw [if_pos hs, lexer_next_symbol_loop_eq H _ l1 _ (Nat.le_refl _), Option.some_bind]
        simp only [advance_content, advance_file_ext, Nat.zero_add]
        generalize keywords_of H l1.file_ext = kws
        rw [lexer_next_keywords_eq]
        · simp only [Option.some_bind, hrest, slice, advance_content]
          have ht : List.take (List.takeWhile is_symbol (c1 :: r)).length
              (List.drop l1.cursor l1.content) = List.takeWhile is_symbol (c1 :: r) := by
            have : List.drop l1.cursor l1.content = c1 :: r := hrest
            rw [this, take_takeWhile_length]
          simp only [classify, h34, h35, h47, hlk, hs, if_false, if_true, ht]
          by_cases hm : List.takeWhile is_symbol (c1 :: r) ∈ kws
          · simp only [hm, if_true]
          · simp only [hm, if_false]
        · have := takeWhile_length_le is_symbol l1.rest
          rw [rest_length] at this
          have hlt2 : l1.cursor < l1.content.length := hlt
          have h3 : l1.content.length - l1.cursor = l1.content_len - l1.cursor := rfl
          have h4 : (advance H l1 (List.takeWhile is_symbol l1.rest).length).content_len
              = l1.content.length := by simp only [Lexer.content_len, advance_content]
          rw [h4]
          show l1.cursor + (List.takeWhile is_symbol l1.rest).length ≤ l1.content.length
          omega
      · rw [if_neg hs, hch1, Option.some_bind]
        simp [classify, h34, h35, h47, hlk, hs]

/-! ## Lemmas on the reference description -/

theorem through_len_pos (p : Nat → Bool) (c : Nat) (r : List Nat) :
    1 ≤ through_len p (c :: r) := by
  unfold through_len
  by_cases h : p c = true
  · rw [List.takeWhile_cons_of_pos h]; simp only [List.length_cons]; omega
  · rw [List.takeWhile_cons_of_neg h]; simp

theorem is_symbol_of_start (c : Nat) (h : is_symbol_start c = true) : is_symbol c = true := by
  simp only [is_symbol_start, is_symbol, isalnum, Bool.or_eq_true] at h ⊢
  rcases h with h | h
  · exact Or.inl (Or.inl h)
  · exact Or.inr h

theorem literal_kind_ne_end (c : Nat) (k : Token_Kind) (h : literal_kind c = some k) :
    k ≠ TOKEN_END := by
  unfold literal_kind at h
  repeat' split at h
  all_goals first
    | (cases h; decide)
    | (exact absurd h (by simp))

theorem classify_cons (kws : List (List Nat)) (c : Nat) (r : List Nat) :
    classify kws (c :: r) =
      if c = 34 then (TOKEN_STRING, 1 + through_len (fun b => b != 34 && b != 10) r)
      else if c = 35 then (TOKEN_PREPROC, through_len (fun b => b != 10) (c :: r))
      else if c = 47 ∧ r.head? = some 47 then
        (TOKEN_COMMENT, through_len (fun b => b != 10) (c :: r))
      else match literal_kind c with
        | some k => (k, 1)
        | none =>
          if is_symbol_start c then
            (if (c :: r).takeWhile is_symbol ∈ kws then TOKEN_KEYWORD else TOKEN_SYMBOL,
              ((c :: r).takeWhile is_symbol).length)
          else (TOKEN_INVALID, 1) := rfl

theorem classify_snd_le (kws : List (List Nat)) (r : List Nat) :
    (classify kws r).2 ≤ r.length := by
  cases r with
  | nil => simp [classify]
  | cons c r =>
    rw [classify_cons]
    have h1 := through_len_le (fun b => b != 34 && b != 10) r
    have h2 := through_len_le (fun b => b != 10) (c :: r)
    have h3 := takeWhile_length_le is_symbol (c :: r)
    simp only [List.length_cons] at h2 h3 ⊢
    by_cases h34 : c = 34
    · rw [if_pos h34]; simp only []; omega
    rw [if_neg h34]
    by_cases h35 : c = 35
    · rw [if_pos h35]; exact h2
    rw [if_neg h35]
    by_cases h47 : c = 47 ∧ r.head? = some 47
    · rw [if_pos h47]; exact h2
    rw [if_neg h47]
    cases literal_kind c with
    | some k => simp
    | none =>
      simp only []
      by_cases hs : is_symbol_start c = true
      · rw [if_pos hs]; exact h3
      · rw [if_neg hs]; simp

theorem classify_snd_pos (kws : List (List Nat)) (c : Nat) (r : List Nat) :
    1 ≤ (classify kws (c :: r)).2 := by
  rw [classify_cons]
  have h2 := through_len_pos (fun b => b != 10) c r
  by_cases h34 : c = 34
  · rw [if_pos h34]; simp only []; omega
  rw [if_neg h34]
  by_cases h35 : c = 35
  · rw [if_pos h35]; exact h2
  rw [if_neg h35]
  by_cases h47 : c = 47 ∧ r.head? = some 47
  · rw [if_pos h47]; exact h2
  rw [if_neg h47]
  cases literal_kind c with
  | some k => simp
  | none =>
    simp only []
    by_cases hs : is_symbol_start c = true
    · rw [if_pos hs, List.takeWhile_cons_of_pos (is_symbol_of_start c hs)]
      simp
    · rw [if_neg hs]

theorem classify_end_iff (kws : List (List Nat)) (r : List Nat) :
    (classify kws r).1 = TOKEN_END ↔ r = [] := by
  cases r with
  | nil => simp [classify]
  | cons c r =>
    simp only [reduceCtorEq, iff_false]
    rw [classify_cons]
    by_cases h34 : c = 34
    · rw [if_pos h34]; simp
    rw [if_neg h34]
    by_cases h35 : c = 35
    · rw [if_pos h35]; simp
    rw [if_neg h35]
    by_cases h47 : c = 47 ∧ r.head? = some 47
    · rw [if_pos h47]; simp
    rw [if_neg h47]
    cases hk : literal_kind c with
    | some k => exact literal_kind_ne_end c k hk
    | none =>
      simp only []
      by_cases hs : is_symbol_start c = true
      · rw [if_pos hs]; simp only []; split <;> decide
      · rw [if_neg hs]; simp

theorem ws_len_le (r : List Nat) : ws_len r ≤ r.length := takeWhile_length_le isspace r

theorem lexeme_rest_length (l : Lexer) :
    l.lexeme_rest.length = l.rest.length - ws_len l.rest := by
  simp [lexeme_rest_eq_drop]

theorem next_state_cursor (H : Header) (l : Lexer) :
    (next_state H l).cursor =
      l.cursor + ws_len l.rest + (classify (keywords_of H l.file_ext) l.lexeme_rest).2 := by
  simp [next_state, Nat.add_assoc]

@[simp] theorem next_state_content (H : Header) (l : Lexer) :
    (next_state H l).content = l.content := by
  simp [next_state]

@[simp] theorem next_state_file_ext (H : Header) (l : Lexer) :
    (next_state H l).file_ext = l.file_ext := by
  simp [next_state]

theorem next_token_end (H : Header) (l : Lexer) :
    (next_token H l).text + (next_token H l).text_len = (next_state H l).cursor := by
  simp [next_token, next_state, Nat.add_assoc]

theorem next_state_cursor_le (H : Header) (l : Lexer) (h : l.cursor ≤ l.content_len) :
    (next_state H l).cursor ≤ l.content_len := by
  rw [next_state_cursor]
  have h1 := ws_len_le l.rest
  have h2 := classify_snd_le (keywords_of H l.file_ext) l.lexeme_rest
  rw [lexeme_rest_length] at h2
  rw [rest_length] at h1 h2
  omega

theorem next_token_len_pos (H : Header) (l : Lexer) (h : (next_token H l).kind ≠ TOKEN_END) :
    1 ≤ (next_token H l).text_len := by
  simp only [next_token] at h ⊢
  cases hr : l.lexeme_rest with
  | nil => rw [hr] at h; exact absurd rfl h
  | cons c r => exact classify_snd_pos _ c r

/-- A call that returns a token other than the end token leaves strictly fewer
bytes. -/
theorem next_state_progress (H : Header) (l : Lexer)
    (h : (next_token H l).kind ≠ TOKEN_END) : l.cursor < (next_state H l).cursor := by
  have := next_token_len_pos H l h
  rw [next_state_cursor]
  simp only [next_token] at this
  omega

theorem lexer_run_succ (H : Header) (n : Nat) (l : Lexer) :
    lexer_run H (n + 1) l =
      (lexer_run H n (next_state H l)).bind fun (ts, l2) => some (next_token H l :: ts, l2) := by
  rw [lexer_run, lexer_next_eq, Option.some_bind]

/-- From a state within the buffer, some number of calls (at most the number of
bytes left) return tokens other than the end token, and the next call returns
the end token. -/
theorem lexer_run_reaches_end (H : Header) (k : Nat) (l : Lexer)
    (hk : l.content_len - l.cursor ≤ k) (h : l.cursor ≤ l.content_len) :
    ∃ n toks lN, n ≤ l.content_len - l.cursor ∧ lexer_run H n l = some (toks, lN) ∧
      (∀ t ∈ toks, t.kind ≠ TOKEN_END) ∧ (next_token H lN).kind = TOKEN_END := by
  induction k generalizing l with
  | zero =>
    refine ⟨0, [], l, Nat.zero_le _, rfl, by simp, ?_⟩
    have : l.lexeme_rest = [] := by
      apply List.eq_nil_of_length_eq_zero
      rw [lexeme_rest_length, rest_length]; omega
    simp [next_token, this, classify]
  | succ k ih =>
    by_cases he : (next_token H l).kind = TOKEN_END
    · exact ⟨0, [], l, Nat.zero_le _, rfl, by simp, he⟩
    · have hp := next_state_progress H l he
      have hle := next_state_cursor_le H l h
      have hc : (next_state H l).content_len = l.content_len := by
        simp only [Lexer.content_len, next_state_content]
      obtain ⟨n, toks, lN, hn, hrun, hall, hend⟩ :=
        ih (next_state H l) (by rw [hc]; omega) (by rw [hc]; exact hle)
      refine ⟨n + 1, next_token H l :: toks, lN, ?_, ?_, ?_, hend⟩
      · rw [hc] at hn; omega
      · rw [lexer_run_succ, hrun, Option.some_bind]
      · intro t ht
        rcases List.mem_cons.mp ht with rfl | ht
        · exact he
        · exact hall t ht

/-! ## Termination and progress -/

/-- C1. From every state with `cursor ≤ content_len`, some number `n` of calls of
`lexer_next`, at most `content_len - cursor`, return tokens other than the end
token, and the call after them returns the end token; and from every state at
all a call of `lexer_next` returns and leaves a cursor that is not smaller. -/
theorem lexer_next_reaches_end (H : Header) (l : Lexer) (h : l.cursor ≤ l.content_len) :
    (∃ n toks lN tEnd lEnd, n ≤ l.content_len - l.cursor ∧
      lexer_run H n l = some (toks, lN) ∧ toks.length = n ∧
      (∀ t ∈ toks, t.kind ≠ TOKEN_END) ∧
      lexer_next H lN = some (tEnd, lEnd) ∧ tEnd.kind = TOKEN_END) ∧
    (∀ l1 : Lexer, ∃ t l2, lexer_next H l1 = some (t, l2) ∧ l1.cursor ≤ l2.cursor) := by
  constructor
  · obtain ⟨n, toks, lN, hn, hrun, hall, hend⟩ :=
      lexer_run_reaches_end H _ l (Nat.le_refl _) h
    refine ⟨n, toks, lN, next_token H lN, next_state H lN, hn, hrun, ?_, hall,
      lexer_next_eq H lN, hend⟩
    clear hn hall hend h
    induction n generalizing l toks with
    | zero => simp only [lexer_run, Option.some.injEq, Prod.mk.injEq] at hrun; rw [← hrun.1]; rfl
    | succ n ih =>
      rw [lexer_run_succ] at hrun
      cases hr : lexer_run H n (next_state H l) with
      | none => rw [hr] at hrun; simp at hrun
      | some res =>
        obtain ⟨ts, l2⟩ := res
        rw [hr, Option.some_bind] at hrun
        simp only [Option.some.injEq, Prod.mk.injEq] at hrun
        rw [← hrun.1, List.length_cons, ih (next_state H l) ts (by rw [hr, hrun.2])]
  · intro l1
    refine ⟨next_token H l1, next_state H l1, lexer_next_eq H l1, ?_⟩
    rw [next_state_cursor]; omega

/-- Witness of C1: the buffer `a b`, three bytes. -/
theorem lexer_next_reaches_end_witness :
    (lexer_new none [97, 32, 98] none).cursor ≤ (lexer_new none [97, 32, 98] none).content_len ∧
    ((∃ n toks lN tEnd lEnd, n ≤ (lexer_new none [97, 32, 98] none).content_len
        - (lexer_new none [97, 32, 98] none).cursor ∧
      lexer_run exampleHeader n (lexer_new none [97, 32, 98] none) = some (toks, lN) ∧
      toks.length = n ∧ (∀ t ∈ toks, t.kind ≠ TOKEN_END) ∧
      lexer_next exampleHeader lN = some (tEnd, lEnd) ∧ tEnd.kind = TOKEN_END) ∧
    (∀ l1 : Lexer, ∃ t l2, lexer_next exampleHeader l1 = some (t, l2) ∧ l1.cursor ≤ l2.cursor)) :=
  ⟨by decide, lexer_next_reaches_end exampleHeader (lexer_new none [97, 32, 98] none) (by decide)⟩

/-! ## Tokens are not empty -/

/-- C2. A token other than the end token that `lexer_next` returns from a state
with `cursor ≤ content_len` has `text_len ≥ 1`, and the call advanced the cursor
by at least `text_len`: the cursor after the call is the end of the token, which
starts at or after the cursor before the call. -/
theorem lexer_next_token_nonempty (H : Header) (l : Lexer) (h : l.cursor ≤ l.content_len)
    (tok : Token) (l2 : Lexer) (hn : lexer_next H l = some (tok, l2))
    (hk : tok.kind ≠ TOKEN_END) :
    1 ≤ tok.text_len ∧ l.cursor + tok.text_len ≤ l2.cursor ∧
      l2.cursor = tok.text + tok.text_len ∧ l.cursor ≤ tok.text ∧
      l2.cursor ≤ l2.content_len := by
  rw [lexer_next_eq] at hn
  simp only [Option.some.injEq, Prod.mk.injEq] at hn
  obtain ⟨rfl, rfl⟩ := hn
  have h1 := next_token_len_pos H l hk
  have h2 := next_token_end H l
  have h3 : l.cursor ≤ (next_token H l).text := by simp [next_token]
  have h4 := next_state_cursor_le H l h
  have hc : (next_state H l).content_len = l.content_len := by
    simp only [Lexer.content_len, next_state_content]
  rw [hc]
  omega

/-- Witness of C2: the token `ab` of the buffer ` ab`. -/
theorem lexer_next_token_nonempty_witness :
    lexer_next exampleHeader (lexer_new none [32, 97, 98] none) =
      some (⟨TOKEN_SYMBOL, 1, 2, ⟨0, 0⟩⟩, ⟨none, [32, 97, 98], 3, 0, 0, 0, FEXT_CPP, none⟩) ∧
    1 ≤ (2 : Nat) ∧ 0 + 2 ≤ 3 ∧ 3 = 1 + 2 ∧ 0 ≤ 1 ∧ 3 ≤ 3 :=
  ⟨by decide, lexer_next_token_nonempty exampleHeader (lexer_new none [32, 97, 98] none)
    (by decide) ⟨TOKEN_SYMBOL, 1, 2, ⟨0, 0⟩⟩ ⟨none, [32, 97, 98], 3, 0, 0, 0, FEXT_CPP, none⟩
    (by decide) (by decide)⟩


/-! ## Round trip -/

theorem lexer_new_eq (atlas : Option Free_Glyph_Atlas) (content : List Nat)
    (file_path : Option (List Nat)) :
    lexer_new atlas content file_path =
      { atlas := atlas, content := content, cursor := 0, line := 0, bol := 0, x := 0,
        file_ext := (lexer_new atlas content file_path).file_ext, file_path := file_path } := by
  unfold lexer_new
  cases file_path with
  | none => rfl
  | some items =>
    simp only []
    cases strrchr items 46 with
    | none => rfl
    | some dot =>
      simp only []
      repeat' split
      all_goals rfl

theorem lexer_new_cursor (atlas : Option Free_Glyph_Atlas) (content : List Nat)
    (file_path : Option (List Nat)) : (lexer_new atlas content file_path).cursor = 0 := by
  rw [lexer_new_eq]

theorem lexer_new_content (atlas : Option Free_Glyph_Atlas) (content : List Nat)
    (file_path : Option (List Nat)) : (lexer_new atlas content file_path).content = content := by
  rw [lexer_new_eq]

theorem lexer_scan_succ (H : Header) (n : Nat) (l : Lexer) :
    lexer_scan H (n + 1) l =
      if (next_token H l).kind = TOKEN_END then some [next_token H l]
      else (lexer_scan H n (next_state H l)).bind fun ts => some (next_token H l :: ts) := by
  rw [lexer_scan, lexer_next_eq, Option.some_bind]

theorem getD_rest (l : Lexer) (j : Nat) :
    l.content.getD (l.cursor + j) 0 = l.rest.getD j 0 := by
  simp [Lexer.rest, List.getD_eq_getElem?_getD, List.getElem?_drop]

theorem takeWhile_getD (p : Nat → Bool) (r : List Nat) (j : Nat)
    (h : j < (r.takeWhile p).length) : p (r.getD j 0) = true := by
  induction r generalizing j with
  | nil => simp at h
  | cons a r ih =>
    by_cases ha : p a = true
    · rw [List.takeWhile_cons_of_pos ha] at h
      cases j with
      | zero => simpa using ha
      | succ j =>
        simp only [List.length_cons, Nat.add_lt_add_iff_right] at h
        simpa using ih j h
    · rw [List.takeWhile_cons_of_neg ha] at h
      simp at h

/-- The bytes that a call skips before its token are whitespace. -/
theorem skipped_are_space (l : Lexer) (i : Nat) (h1 : l.cursor ≤ i)
    (h2 : i < l.cursor + ws_len l.rest) : isspace (l.content.getD i 0) = true := by
  obtain ⟨j, rfl⟩ : ∃ j, i = l.cursor + j := ⟨i - l.cursor, by omega⟩
  rw [getD_rest]
  exact takeWhile_getD isspace l.rest j (by unfold ws_len at h2; omega)

/-- When a call returns the end token, every byte from the cursor on is
whitespace. -/
theorem rest_space_of_end (H : Header) (l : Lexer) (h : (next_token H l).kind = TOKEN_END)
    (i : Nat) (h1 : l.cursor ≤ i) (h2 : i < l.content_len) :
    isspace (l.content.getD i 0) = true := by
  have hnil : l.lexeme_rest = [] := (classify_end_iff _ _).mp h
  have hlen := lexeme_rest_length l
  rw [hnil, rest_length] at hlen
  simp only [List.length_nil] at hlen
  apply skipped_are_space l i h1
  have := ws_len_le l.rest
  rw [rest_length] at this
  omega

/-- Scanning from a state within the buffer returns a list of tokens that ends
with the end token and tiles the buffer from the cursor on. -/
theorem lexer_scan_tiles (H : Header) (k : Nat) (l : Lexer)
    (hk : l.content_len - l.cursor ≤ k) (h : l.cursor ≤ l.content_len) :
    ∃ toks tEnd, lexer_scan H (k + 1) l = some (toks ++ [tEnd]) ∧
      tEnd.kind = TOKEN_END ∧ tEnd.text_len = 0 ∧
      (∀ t ∈ toks, t.kind ≠ TOKEN_END ∧ 1 ≤ t.text_len) ∧
      tiles l.content l.cursor toks := by
  induction k generalizing l with
  | zero =>
    have hnil : l.lexeme_rest = [] := by
      apply List.eq_nil_of_length_eq_zero
      rw [lexeme_rest_length, rest_length]; omega
    have hend : (next_token H l).kind = TOKEN_END := by
      simp [next_token, hnil, classify]
    refine ⟨[], next_token H l, ?_, hend, ?_, by simp, ?_⟩
    · rw [lexer_scan_succ, if_pos hend]; rfl
    · simp [next_token, hnil, classify]
    · exact ⟨h, fun i h1 h2 => rest_space_of_end H l hend i h1 h2⟩
  | succ k ih =>
    by_cases hend : (next_token H l).kind = TOKEN_END
    · have hnil : l.lexeme_rest = [] := (classify_end_iff _ _).mp hend
      refine ⟨[], next_token H l, ?_, hend, ?_, by simp, ?_⟩
      · rw [lexer_scan_succ, if_pos hend]; rfl
      · simp [next_token, hnil, classify]
      · exact ⟨h, fun i h1 h2 => rest_space_of_end H l hend i h1 h2⟩
    · have hp := next_state_progress H l hend
      have hle := next_state_cursor_le H l h
      have hc : (next_state H l).content_len = l.content_len := by
        simp only [Lexer.content_len, next_state_content]
      obtain ⟨toks, tEnd, hscan, hk1, hk2, hall, htiles⟩ :=
        ih (next_state H l) (by rw [hc]; omega) (by rw [hc]; exact hle)
      refine ⟨next_token H l :: toks, tEnd, ?_, hk1, hk2, ?_, ?_⟩
      · rw [lexer_scan_succ, if_neg hend, hscan]; rfl
      · intro t ht
        rcases List.mem_cons.mp ht with rfl | ht
        · exact ⟨hend, next_token_len_pos H l hend⟩
        · exact hall t ht
      · have htext : (next_token H l).text = l.cursor + ws_len l.rest := rfl
        refine ⟨by rw [htext]; omega, ?_, ?_, ?_⟩
        · intro i h1 h2
          exact skipped_are_space l i h1 (by rw [htext] at h2; exact h2)
        · rw [next_token_end]; exact hle
        · rw [next_token_end]
          rw [next_state_content] at htiles
          exact htiles

theorem tiles_lower (content : List Nat) (pos : Nat) (toks : List Token)
    (h : tiles content pos toks) : ∀ t ∈ toks, pos ≤ t.text := by
  induction toks generalizing pos with
  | nil => simp
  | cons t ts ih =>
    obtain ⟨h1, -, -, h4⟩ := h
    intro t2 ht2
    rcases List.mem_cons.mp ht2 with rfl | ht2
    · exact h1
    · have := ih _ h4 t2 ht2
      omega

theorem not_covers_of_lt (content : List Nat) (pos : Nat) (toks : List Token)
    (h : tiles content pos toks) (i : Nat) (hi : i < pos) :
    (toks.any fun t => t.covers i) = false := by
  rw [List.any_eq_false]
  intro t ht
  have := tiles_lower content pos toks h t ht
  simp [Token.covers]
  omega

theorem map_getD_range' (content : List Nat) (a n : Nat) (h : a + n ≤ content.length) :
    (List.range' a n).map (fun i => content.getD i 0) = slice content a n := by
  induction n generalizing a with
  | zero => simp [slice]
  | succ n ih =>
    have hlt : a < content.length := by omega
    rw [List.range'_succ, List.map_cons, ih (a + 1) (by omega)]
    unfold slice
    rw [List.drop_eq_getElem_cons hlt, List.take_succ_cons]
    simp [List.getD_eq_getElem?_getD, List.getElem?_eq_getElem hlt]

theorem range'_split (a b c : Nat) (h1 : a ≤ b) (h2 : b ≤ c) :
    List.range' a (c - a) = List.range' a (b - a) ++ List.range' b (c - b) := by
  have e : List.range' b (c - b) = List.range' (a + (b - a)) (c - b) := by
    congr 1; omega
  rw [e, List.range'_append_1]
  congr 1
  omega

/-- The texts of tokens that tile the buffer from `pos` on, concatenated, are the
bytes of the buffer from `pos` on that lie in some token. -/
theorem tiles_flatMap (content : List Nat) (pos : Nat) (toks : List Token)
    (h : tiles content pos toks) :
    toks.flatMap (Token.bytes_in content) =
      ((List.range' pos (content.length - pos)).filter
        fun i => toks.any fun t => t.covers i).map fun i => content.getD i 0 := by
  induction toks generalizing pos with
  | nil => simp
  | cons t ts ih =>
    obtain ⟨h1, h2, h3, h4⟩ := h
    have hsplit : List.range' pos (content.length - pos) =
        List.range' pos (t.text - pos) ++ (List.range' t.text t.text_len ++
          List.range' (t.text + t.text_len) (content.length - (t.text + t.text_len))) := by
      rw [range'_split pos t.text content.length h1 (by omega),
        range'_split t.text (t.text + t.text_len) content.length (by omega) h3]
      congr 2
      congr 1
      omega
    rw [hsplit, List.filter_append, List.filter_append, List.map_append, List.map_append,
      List.flatMap_cons]
    have p1 : (List.range' pos (t.text - pos)).filter
        (fun i => (t :: ts).any fun t => t.covers i) = [] := by
      rw [List.filter_eq_nil_iff]
      intro i hi
      rw [List.mem_range'_1] at hi
      have := not_covers_of_lt content (t.text + t.text_len) ts h4 i (by omega)
      have hn : ¬ t.text ≤ i := by omega
      rw [List.any_cons, this, Bool.or_false]
      simp [Token.covers, hn]
    have p2 : (List.range' t.text t.text_len).filter
        (fun i => (t :: ts).any fun t => t.covers i) = List.range' t.text t.text_len := by
      rw [List.filter_eq_self]
      intro i hi
      rw [List.mem_range'_1] at hi
      simp only [List.any_cons, Token.covers, Bool.or_eq_true, Bool.and_eq_true,
        decide_eq_true_eq]
      exact Or.inl hi
    have p3 : (List.range' (t.text + t.text_len) (content.length - (t.text + t.text_len))).filter
        (fun i => (t :: ts).any fun t => t.covers i) =
        (List.range' (t.text + t.text_len) (content.length - (t.text + t.text_len))).filter
        (fun i => ts.any fun t => t.covers i) := by
      apply List.filter_congr
      intro i hi
      rw [List.mem_range'_1] at hi
      have : t.covers i = false := by
        simp [Token.covers]
        omega
      simp only [List.any_cons, this, Bool.false_or]
    rw [p1, p2, p3, List.map_nil, List.nil_append, map_getD_range' content _ _ h3, ← ih _ h4]
    rfl

theorem countP_covers_of_lt (content : List Nat) (pos : Nat) (toks : List Token)
    (h : tiles content pos toks) (i : Nat) (hi : i < pos) :
    toks.countP (fun t => t.covers i) = 0 := by
  rw [List.countP_eq_zero]
  intro t ht
  have := tiles_lower content pos toks h t ht
  simp [Token.covers]
  omega

/-- In a tiling no byte lies in two tokens, and a byte at or after `pos` that is
not whitespace lies in exactly one. -/
theorem tiles_countP (content : List Nat) (pos : Nat) (toks : List Token)
    (h : tiles content pos toks) (i : Nat) :
    toks.countP (fun t => t.covers i) ≤ 1 ∧
      (pos ≤ i → i < content.length → isspace (content.getD i 0) = false →
        toks.countP (fun t => t.covers i) = 1) := by
  induction toks generalizing pos with
  | nil =>
    refine ⟨by simp, ?_⟩
    intro h1 h2 h3
    rw [h.2 i h1 h2] at h3
    exact absurd h3 (by simp)
  | cons t ts ih =>
    obtain ⟨h1, h2, h3, h4⟩ := h
    obtain ⟨ih1, ih2⟩ := ih _ h4
    rw [List.countP_cons]
    by_cases hc : t.covers i = true
    · have hlt : i < t.text + t.text_len := by
        simp only [Token.covers, Bool.and_eq_true, decide_eq_true_eq] at hc
        exact hc.2
      rw [countP_covers_of_lt content _ ts h4 i hlt, if_pos hc]
      exact ⟨Nat.le_refl _, fun _ _ _ => rfl⟩
    · rw [if_neg hc, Nat.add_zero]
      refine ⟨ih1, ?_⟩
      intro g1 g2 g3
      apply ih2 _ g2 g3
      by_cases hlt : i < t.text
      · rw [h2 i g1 hlt] at g3
        exact absurd g3 (by simp)
      · simp only [Token.covers, Bool.and_eq_true, decide_eq_true_eq, not_and] at hc
        have := hc (by omega)
        omega

/-- C3. Scanning a buffer from a fresh lexer returns tokens other than the end
token and then the end token; the token texts tile the buffer from offset 0 (in
order, without overlap, every byte before, between and after them being
whitespace); their concatenation is the buffer with the bytes outside the tokens
deleted; no byte lies in two tokens and every byte that is not whitespace lies
in exactly one. -/
theorem lexer_scan_round_trip (H : Header) (atlas : Option Free_Glyph_Atlas)
    (content : List Nat) (file_path : Option (List Nat)) :
    ∃ toks tEnd,
      lexer_scan H (content.length + 1) (lexer_new atlas content file_path)
        = some (toks ++ [tEnd]) ∧
      tEnd.kind = TOKEN_END ∧ tEnd.text_len = 0 ∧
      (∀ t ∈ toks, t.kind ≠ TOKEN_END ∧ 1 ≤ t.text_len) ∧
      tiles content 0 toks ∧
      toks.flatMap (Token.bytes_in content) = kept_bytes content toks ∧
      (∀ i, i < content.length →
        toks.countP (fun t => t.covers i) ≤ 1 ∧
        (isspace (content.getD i 0) = false → toks.countP (fun t => t.covers i) = 1)) := by
  have hcur : (lexer_new atlas content file_path).cursor = 0 := lexer_new_cursor _ _ _
  have hcon : (lexer_new atlas content file_path).content = content := lexer_new_content _ _ _
  obtain ⟨toks, tEnd, hscan, hk1, hk2, hall, htiles⟩ :=
    lexer_scan_tiles H content.length (lexer_new atlas content file_path)
      (by simp only [Lexer.content_len, hcon, hcur]; omega)
      (by rw [hcur]; exact Nat.zero_le _)
  rw [hcon, hcur] at htiles
  refine ⟨toks, tEnd, hscan, hk1, hk2, hall, htiles, ?_, ?_⟩
  · rw [tiles_flatMap content 0 toks htiles, kept_bytes, List.range_eq_range', Nat.sub_zero]
  · intro i hi
    have := tiles_countP content 0 toks htiles i
    exact ⟨this.1, fun h => this.2 (Nat.zero_le _) hi h⟩

/-! ## The branches of `lexer_next` -/

theorem bytes_in_take (l : Lexer) (t : Token) (h : t.text = l.cursor + ws_len l.rest) :
    t.bytes_in l.content = l.lexeme_rest.take t.text_len := by
  rw [Token.bytes_in, slice, h, lexeme_rest_eq_drop, Lexer.rest, List.drop_drop, Nat.add_comm]

/-- A call returns the token that `classify` gives for the bytes after the
leading whitespace. -/
theorem lexer_next_yields_classify (H : Header) (l : Lexer) :
    lexer_next_yields H l (classify (keywords_of H l.file_ext) l.lexeme_rest).1
      (l.lexeme_rest.take (classify (keywords_of H l.file_ext) l.lexeme_rest).2) := by
  refine ⟨next_token H l, next_state H l, lexer_next_eq H l, rfl, rfl, ?_, ?_,
    (next_token_end H l).symm, next_state_content H l⟩
  · have := classify_snd_le (keywords_of H l.file_ext) l.lexeme_rest
    rw [List.length_take]
    show (classify (keywords_of H l.file_ext) l.lexeme_rest).2 = _
    omega
  · rw [bytes_in_take l _ rfl]; rfl

theorem take_through_len (p : Nat → Bool) (r : List Nat) :
    r.take (through_len p r) = r.takeWhile p ++ (r.dropWhile p).take 1 := by
  induction r with
  | nil => simp [through_len]
  | cons a r ih =>
    by_cases h : p a = true
    · have e : through_len p (a :: r) = through_len p r + 1 := by
        unfold through_len
        rw [List.takeWhile_cons_of_pos h]
        simp only [List.length_cons, Nat.add_lt_add_iff_right]
        omega
      rw [e, List.take_succ_cons, ih, List.takeWhile_cons_of_pos h,
        List.dropWhile_cons_of_pos h, List.cons_append]
    · have e : through_len p (a :: r) = 1 := by
        unfold through_len
        rw [List.takeWhile_cons_of_neg h]
        simp
      rw [e, List.takeWhile_cons_of_neg h, List.dropWhile_cons_of_neg h]
      simp

theorem takeWhile_append_stop (p : Nat → Bool) (pre : List Nat) (x : Nat) (post : List Nat)
    (hpre : ∀ b ∈ pre, p b = true) (hx : p x = false) :
    (pre ++ x :: post).takeWhile p = pre ∧ (pre ++ x :: post).dropWhile p = x :: post := by
  induction pre with
  | nil =>
    have hx2 : ¬ p x = true := by rw [hx]; simp
    simp [List.takeWhile_cons_of_neg hx2, List.dropWhile_cons_of_neg hx2]
  | cons a pre ih =>
    have ha : p a = true := hpre a (List.mem_cons_self _ _)
    have := ih (fun b hb => hpre b (List.mem_cons_of_mem _ hb))
    rw [List.cons_append, List.takeWhile_cons_of_pos ha, List.dropWhile_cons_of_pos ha,
      this.1, this.2]
    exact ⟨rfl, rfl⟩

theorem takeWhile_all (p : Nat → Bool) (r : List Nat) (h : ∀ b ∈ r, p b = true) :
    r.takeWhile p = r ∧ r.dropWhile p = [] := by
  induction r with
  | nil => exact ⟨rfl, rfl⟩
  | cons a r ih =>
    have ha : p a = true := h a (List.mem_cons_self _ _)
    have := ih (fun b hb => h b (List.mem_cons_of_mem _ hb))
    rw [List.takeWhile_cons_of_pos ha, List.dropWhile_cons_of_pos ha, this.1, this.2]
    exact ⟨rfl, rfl⟩

/-- The kinds, offsets and lengths of the tokens of a scan are those of
`ref_scan`. -/
theorem lexer_scan_shape (H : Header) (n : Nat) (l : Lexer) :
    (lexer_scan H n l).map (List.map Token.shape) =
      ref_scan (keywords_of H l.file_ext) n l.cursor l.rest := by
  induction n generalizing l with
  | zero => rfl
  | succ n ih =>
    rw [lexer_scan_succ, ref_scan]
    show _ = if (next_token H l).kind = TOKEN_END then _ else _
    by_cases hend : (next_token H l).kind = TOKEN_END
    · rw [if_pos hend, if_pos hend]
      have hnil : l.lexeme_rest = [] := (classify_end_iff _ _).mp hend
      simp [Token.shape, next_token, hnil, classify]
    · rw [if_neg hend, if_neg hend]
      have := ih (next_state H l)
      rw [next_state_file_ext, next_state_cursor] at this
      have hr : (next_state H l).rest = l.rest.drop
          (ws_len l.rest + (classify (keywords_of H l.file_ext) l.lexeme_rest).2) := by
        rw [next_state, advance_rest]
      rw [hr] at this
      show _ = (ref_scan (keywords_of H l.file_ext) n
        (l.cursor + ws_len l.rest + (classify (keywords_of H l.file_ext) l.lexeme_rest).2)
        (l.rest.drop (ws_len l.rest + (classify (keywords_of H l.file_ext) l.lexeme_rest).2))).bind _
      rw [← this]
      cases lexer_scan H n (next_state H l) with
      | none => rfl
      | some ts => rfl

theorem ref_scan_step (kws : List (List Nat)) (n off : Nat) (r : List Nat) (w : Nat)
    (k : Token_Kind) (m : Nat) (r2 : List Nat) (hw : ws_len r = w)
    (hc : classify kws (r.dropWhile isspace) = (k, m)) (hk : k ≠ TOKEN_END)
    (hr : r.drop (w + m) = r2) :
    ref_scan kws (n + 1) off r =
      (ref_scan kws n (off + w + m) r2).bind fun ts => some ((k, off + w, m) :: ts) := by
  rw [ref_scan]
  simp only [hc, hw, hr, if_neg hk]

theorem ref_scan_end (kws : List (List Nat)) (n off : Nat) (r : List Nat) (w : Nat)
    (hw : ws_len r = w) (hc : r.dropWhile isspace = []) :
    ref_scan kws (n + 1) off r = some [(TOKEN_END, off + w, 0)] := by
  rw [ref_scan]
  simp only [hc, hw, classify, if_true]

theorem shape_bytes_in (content : List Nat) (toks : List Token) :
    toks.map (fun t => (t.kind, t.bytes_in content)) =
      (toks.map Token.shape).map fun s => (s.1, slice content s.2.1 s.2.2) := by
  rw [List.map_map]
  rfl

/-! ## String literals -/

/-- C4 (as amended). When the first byte at or after the cursor that is not
whitespace is a double quote, `lexer_next` returns a string token that starts
at that quote and runs through and including the next double quote or newline,
whichever comes first, or to the end of the buffer when there is neither: the
terminating byte, the newline as well as the quote, is part of the token and is
consumed. Nothing is special about a backslash before the quote. -/
theorem lexer_next_string (H : Header) (l : Lexer) (r : List Nat)
    (h : l.lexeme_rest = 34 :: r) :
    lexer_next_yields H l TOKEN_STRING
      (34 :: r.takeWhile (fun b => b != 34 && b != 10) ++
        (r.dropWhile (fun b => b != 34 && b != 10)).take 1) ∧
    (∀ pre x post, r = pre ++ x :: post → (∀ b ∈ pre, b ≠ 34 ∧ b ≠ 10) → (x = 34 ∨ x = 10) →
      lexer_next_yields H l TOKEN_STRING (34 :: pre ++ [x])) ∧
    ((∀ b ∈ r, b ≠ 34 ∧ b ≠ 10) → lexer_next_yields H l TOKEN_STRING (34 :: r)) := by
  have base := lexer_next_yields_classify H l
  rw [h, classify_cons, if_pos rfl] at base
  simp only [] at base
  rw [Nat.add_comm 1, List.take_succ_cons, take_through_len] at base
  refine ⟨base, ?_, ?_⟩
  · intro pre x post hr hpre hx
    have h1 : ∀ b ∈ pre, (b != 34 && b != 10) = true := by
      intro b hb
      have := hpre b hb
      simp [this.1, this.2]
    have h2 : (x != 34 && x != 10) = false := by
      rcases hx with rfl | rfl <;> decide
    have := takeWhile_append_stop _ pre x post h1 h2
    rw [hr, this.1, this.2] at base
    exact base
  · intro hall
    have h1 : ∀ b ∈ r, (b != 34 && b != 10) = true := by
      intro b hb
      have := hall b hb
      simp [this.1, this.2]
    have := takeWhile_all _ r h1
    rw [this.1, this.2] at base
    simpa using base

/-- Witness of C4: in the buffer ` "a\"b` the token is `"a\"`, closed by the quote
after the backslash. -/
theorem lexer_next_string_witness :
    (lexer_new none [32, 34, 97, 92, 34, 98] none).lexeme_rest = 34 :: [97, 92, 34, 98] ∧
    lexer_next_yields exampleHeader (lexer_new none [32, 34, 97, 92, 34, 98] none)
      TOKEN_STRING [34, 97, 92, 34] :=
  ⟨by decide,
    (lexer_next_string exampleHeader (lexer_new none [32, 34, 97, 92, 34, 98] none)
      [97, 92, 34, 98] (by decide)).2.1 [97, 92] 34 [98] rfl (by decide) (Or.inl rfl)⟩

/-- Counterexample to C4 as stated: in the buffer `"a`, newline, `b` the string
token is `"a` with the newline, three bytes, and the cursor ends after the
newline; the claim gives the token two bytes and leaves the newline. -/
theorem string_rule_counterexample :
    ¬ string_rule_as_claimed exampleHeader (lexer_new none [34, 97, 10, 98] none) := by
  intro hc
  obtain ⟨tok, l2, hn, -, -, hlen, -⟩ := hc [97, 10, 98] (by decide)
  have hcode : lexer_next exampleHeader (lexer_new none [34, 97, 10, 98] none) =
      some (⟨TOKEN_STRING, 0, 3, ⟨0, 0⟩⟩, ⟨none, [34, 97, 10, 98], 3, 1, 3, 0, FEXT_CPP, none⟩) := by
    decide
  rw [hcode] at hn
  simp only [Option.some.injEq, Prod.mk.injEq] at hn
  rw [← hn.1] at hlen
  revert hlen
  decide

/-! ## Identifiers and keywords -/

theorem literal_kind_not_ident (c : Nat) (k : Token_Kind) (h : literal_kind c = some k) :
    k ≠ TOKEN_SYMBOL ∧ k ≠ TOKEN_KEYWORD := by
  unfold literal_kind at h
  repeat' split at h
  all_goals first
    | (cases h; decide)
    | (exact absurd h (by simp))

/-- The reference description gives the kind keyword exactly when the text is an
entry of the table. -/
theorem classify_ident (kws : List (List Nat)) (r : List Nat)
    (h : (classify kws r).1 = TOKEN_SYMBOL ∨ (classify kws r).1 = TOKEN_KEYWORD) :
    ((classify kws r).1 = TOKEN_KEYWORD ↔ r.take (classify kws r).2 ∈ kws) ∧
      r.take (classify kws r).2 = r.takeWhile is_symbol := by
  cases r with
  | nil => simp [classify] at h
  | cons c r =>
    rw [classify_cons] at h ⊢
    by_cases h34 : c = 34
    · rw [if_pos h34] at h; simp at h
    rw [if_neg h34] at h ⊢
    by_cases h35 : c = 35
    · rw [if_pos h35] at h; simp at h
    rw [if_neg h35] at h ⊢
    by_cases h47 : c = 47 ∧ r.head? = some 47
    · rw [if_pos h47] at h; simp at h
    rw [if_neg h47] at h ⊢
    cases hk : literal_kind c with
    | some k =>
      rw [hk] at h
      have := literal_kind_not_ident c k hk
      simp only [] at h
      rcases h with h | h
      · exact absurd h this.1
      · exact absurd h this.2
    | none =>
      rw [hk] at h
      simp only [] at h ⊢
      by_cases hs : is_symbol_start c = true
      · rw [if_pos hs]
        simp only []
        rw [take_takeWhile_length]
        by_cases hm : List.takeWhile is_symbol (c :: r) ∈ kws
        · simp [hm]
        · simp [hm]
      · rw [if_neg hs] at h; simp at h

/-- An identifier token is a keyword exactly when its text is an entry of the
table that the `switch` selects. -/
theorem keyword_iff_mem (H : Header) (l : Lexer) (tok : Token) (l2 : Lexer)
    (hn : lexer_next H l = some (tok, l2))
    (hid : tok.kind = TOKEN_SYMBOL ∨ tok.kind = TOKEN_KEYWORD) :
    (tok.kind = TOKEN_KEYWORD ↔ tok.bytes_in l.content ∈ keywords_of H l.file_ext) ∧
      (tok.bytes_in l.content).length = tok.text_len := by
  rw [lexer_next_eq] at hn
  simp only [Option.some.injEq, Prod.mk.injEq] at hn
  obtain ⟨rfl, -⟩ := hn
  have hb := bytes_in_take l (next_token H l) rfl
  have hc := classify_ident (keywords_of H l.file_ext) l.lexeme_rest hid
  have hlen : (l.lexeme_rest.take (next_token H l).text_len).length
      = (next_token H l).text_len := by
    have := classify_snd_le (keywords_of H l.file_ext) l.lexeme_rest
    have e : (next_token H l).text_len
        = (classify (keywords_of H l.file_ext) l.lexeme_rest).2 := rfl
    rw [List.length_take, e]
    omega
  rw [hb]
  exact ⟨hc.1, hlen⟩

/-- C5. An identifier token (kind symbol or keyword) that `lexer_next` returns is
a keyword exactly when its whole text, same length and same bytes, is an entry of
the keyword table of the lexer's language, and a symbol exactly when it is not;
an entry that is only a proper prefix of the text does not make it a keyword.
The table of the language is `jKeywords` for Java, `ktKeywords` for Kotlin,
`pyKeywords` for Python, `miniconfKeywords` for MiniConf and `cKeywords` for the
C-family default. With the C-family table, when `int` is an entry the input
`int` is one keyword token, and when `intx` is not an entry the input `intx` is
one symbol token of length 4; with the path `Foo.py`, when `def` is an entry of
the Python table the input `def` is one keyword token. -/
theorem lexer_next_keyword_exact (H : Header) :
    (∀ l tok l2, lexer_next H l = some (tok, l2) →
      (tok.kind = TOKEN_SYMBOL ∨ tok.kind = TOKEN_KEYWORD) →
      (tok.kind = TOKEN_KEYWORD ↔
        ∃ kw ∈ keywords_of H l.file_ext,
          kw.length = tok.text_len ∧ kw = tok.bytes_in l.content) ∧
      (tok.kind = TOKEN_SYMBOL ↔
        ¬ ∃ kw ∈ keywords_of H l.file_ext,
          kw.length = tok.text_len ∧ kw = tok.bytes_in l.content) ∧
      (∀ kw ∈ keywords_of H l.file_ext, kw.length < tok.text_len →
        kw <+: tok.bytes_in l.content → tok.bytes_in l.content ∉ keywords_of H l.file_ext →
        tok.kind = TOKEN_SYMBOL)) ∧
    (∀ atlas, bytes "int" ∈ H.cKeywords →
      (lexer_scan H 2 (lexer_new atlas (bytes "int") none)).map (List.map Token.shape)
        = some [(TOKEN_KEYWORD, 0, 3), (TOKEN_END, 3, 0)]) ∧
    (∀ atlas, bytes "intx" ∉ H.cKeywords →
      (lexer_scan H 2 (lexer_new atlas (bytes "intx") none)).map (List.map Token.shape)
        = some [(TOKEN_SYMBOL, 0, 4), (TOKEN_END, 4, 0)]) ∧
    (keywords_of H FEXT_JAVA = H.jKeywords ∧ keywords_of H FEXT_KOTLIN = H.ktKeywords ∧
      keywords_of H FEXT_PYTHON = H.pyKeywords ∧
      keywords_of H FEXT_MINICONF = H.miniconfKeywords ∧
      keywords_of H FEXT_CPP = H.cKeywords) ∧
    (∀ l tok l2, lexer_next H l = some (tok, l2) →
      (tok.kind = TOKEN_SYMBOL ∨ tok.kind = TOKEN_KEYWORD) →
      (l.file_ext = FEXT_JAVA →
        (tok.kind = TOKEN_KEYWORD ↔ tok.bytes_in l.content ∈ H.jKeywords)) ∧
      (l.file_ext = FEXT_KOTLIN →
        (tok.kind = TOKEN_KEYWORD ↔ tok.bytes_in l.content ∈ H.ktKeywords)) ∧
      (l.file_ext = FEXT_PYTHON →
        (tok.kind = TOKEN_KEYWORD ↔ tok.bytes_in l.content ∈ H.pyKeywords)) ∧
      (l.file_ext = FEXT_MINICONF →
        (tok.kind = TOKEN_KEYWORD ↔ tok.bytes_in l.content ∈ H.miniconfKeywords)) ∧
      (l.file_ext = FEXT_CPP →
        (tok.kind = TOKEN_KEYWORD ↔ tok.bytes_in l.content ∈ H.cKeywords))) ∧
    (∀ atlas, bytes "def" ∈ H.pyKeywords →
      (lexer_scan H 2 (lexer_new atlas (bytes "def") (some (bytes "Foo.py")))).map
        (List.map Token.shape) = some [(TOKEN_KEYWORD, 0, 3), (TOKEN_END, 3, 0)]) ∧
    (∀ atlas, bytes "def" ∉ H.pyKeywords →
      (lexer_scan H 2 (lexer_new atlas (bytes "def") (some (bytes "Foo.py")))).map
        (List.map Token.shape) = some [(TOKEN_SYMBOL, 0, 3), (TOKEN_END, 3, 0)]) := by
  refine ⟨?_, ?_, ?_, ⟨rfl, rfl, rfl, rfl, rfl⟩, ?_, ?_, ?_⟩
  · intro l tok l2 hn hid
    obtain ⟨hkey, hlen⟩ := keyword_iff_mem H l tok l2 hn hid
    have hmem : (∃ kw ∈ keywords_of H l.file_ext,
        kw.length = tok.text_len ∧ kw = tok.bytes_in l.content) ↔
        tok.bytes_in l.content ∈ keywords_of H l.file_ext := by
      constructor
      · rintro ⟨kw, hkw, -, rfl⟩; exact hkw
      · intro hm
        exact ⟨_, hm, hlen, rfl⟩
    refine ⟨by rw [hmem]; exact hkey, ?_, ?_⟩
    · rw [hmem, ← hkey]
      rcases hid with hid | hid
      · rw [hid]; simp
      · rw [hid]; simp
    · intro kw _ _ _ hnot
      rcases hid with hid | hid
      · exact hid
      · exact absurd (hkey.mp hid) hnot
  · intro atlas hint
    rw [lexer_scan_shape, lexer_new_eq]
    have e : bytes "int" = [105, 110, 116] := by decide
    rw [e] at hint ⊢
    have hk : keywords_of H (lexer_new atlas [105, 110, 116] none).file_ext = H.cKeywords := rfl
    simp only [hk, Lexer.rest, List.drop_zero]
    have hc : classify H.cKeywords (List.dropWhile isspace [105, 110, 116])
        = (TOKEN_KEYWORD, 3) := by
      have d : List.dropWhile isspace [105, 110, 116] = [105, 110, 116] := by decide
      have t : List.takeWhile is_symbol [105, 110, 116] = [105, 110, 116] := by decide
      rw [d, classify_cons, t, if_pos hint]
      rfl
    rw [ref_scan_step H.cKeywords 1 0 _ 0 TOKEN_KEYWORD 3 [] (by rfl) hc (by decide) (by rfl),
      ref_scan_end H.cKeywords 0 _ [] 0 (by rfl) (by rfl)]
    rfl
  · intro atlas hint
    rw [lexer_scan_shape, lexer_new_eq]
    have e : bytes "intx" = [105, 110, 116, 120] := by decide
    rw [e] at hint ⊢
    have hk : keywords_of H (lexer_new atlas [105, 110, 116, 120] none).file_ext
        = H.cKeywords := rfl
    simp only [hk, Lexer.rest, List.drop_zero]
    have hc : classify H.cKeywords (List.dropWhile isspace [105, 110, 116, 120])
        = (TOKEN_SYMBOL, 4) := by
      have d : List.dropWhile isspace [105, 110, 116, 120] = [105, 110, 116, 120] := by decide
      have t : List.takeWhile is_symbol [105, 110, 116, 120] = [105, 110, 116, 120] := by
        decide
      rw [d, classify_cons, t, if_neg hint]
      rfl
    rw [ref_scan_step H.cKeywords 1 0 _ 0 TOKEN_SYMBOL 4 [] (by rfl) hc (by decide) (by rfl),
      ref_scan_end H.cKeywords 0 _ [] 0 (by rfl) (by rfl)]
    rfl
  · intro l tok l2 hn hid
    obtain ⟨hkey, -⟩ := keyword_iff_mem H l tok l2 hn hid
    refine ⟨?_, ?_, ?_, ?_, ?_⟩ <;>
    · intro he
      rw [he] at hkey
      exact hkey
  · intro atlas hdef
    rw [lexer_scan_shape, lexer_new_eq]
    have e : bytes "def" = [100, 101, 102] := by decide
    rw [e] at hdef ⊢
    have hk : keywords_of H (lexer_new atlas [100, 101, 102] (some (bytes "Foo.py"))).file_ext
        = H.pyKeywords := rfl
    simp only [hk, Lexer.rest, List.drop_zero]
    have hc : classify H.pyKeywords (List.dropWhile isspace [100, 101, 102])
        = (TOKEN_KEYWORD, 3) := by
      have d : List.dropWhile isspace [100, 101, 102] = [100, 101, 102] := by decide
      have t : List.takeWhile is_symbol [100, 101, 102] = [100, 101, 102] := by decide
      rw [d, classify_cons, t, if_pos hdef]
      rfl
    rw [ref_scan_step H.pyKeywords 1 0 _ 0 TOKEN_KEYWORD 3 [] (by rfl) hc (by decide) (by rfl),
      ref_scan_end H.pyKeywords 0 _ [] 0 (by rfl) (by rfl)]
    rfl
  · intro atlas hdef
    rw [lexer_scan_shape, lexer_new_eq]
    have e : bytes "def" = [100, 101, 102] := by decide
    rw [e] at hdef ⊢
    have hk : keywords_of H (lexer_new atlas [100, 101, 102] (some (bytes "Foo.py"))).file_ext
        = H.pyKeywords := rfl
    simp only [hk, Lexer.rest, List.drop_zero]
    have hc : classify H.pyKeywords (List.dropWhile isspace [100, 101, 102])
        = (TOKEN_SYMBOL, 3) := by
      have d : List.dropWhile isspace [100, 101, 102] = [100, 101, 102] := by decide
      have t : List.takeWhile is_symbol [100, 101, 102] = [100, 101, 102] := by decide
      rw [d, classify_cons, t, if_neg hdef]
      rfl
    rw [ref_scan_step H.pyKeywords 1 0 _ 0 TOKEN_SYMBOL 3 [] (by rfl) hc (by decide) (by rfl),
      ref_scan_end H.pyKeywords 0 _ [] 0 (by rfl) (by rfl)]
    rfl

/-- Witness of C5: with the tables of `exampleHeader`, `int` in the buffer
`int x` is a keyword of the C-family table, the scans of `int` and `intx`, and
`int` in a Python lexer, where it is no entry of the Python table, is a symbol. -/
theorem lexer_next_keyword_exact_witness :
    lexer_next exampleHeader (lexer_new none [105, 110, 116, 32, 120] none) =
      some (⟨TOKEN_KEYWORD, 0, 3, ⟨0, 0⟩⟩,
        ⟨none, [105, 110, 116, 32, 120], 3, 0, 0, 0, FEXT_CPP, none⟩) ∧
    (∃ kw ∈ exampleHeader.cKeywords, kw.length = 3 ∧ kw = [105, 110, 116]) ∧
    bytes "int" ∈ exampleHeader.cKeywords ∧ bytes "intx" ∉ exampleHeader.cKeywords ∧
    (lexer_scan exampleHeader 2 (lexer_new none (bytes "int") none)).map (List.map Token.shape)
      = some [(TOKEN_KEYWORD, 0, 3), (TOKEN_END, 3, 0)] ∧
    (lexer_scan exampleHeader 2 (lexer_new none (bytes "intx") none)).map (List.map Token.shape)
      = some [(TOKEN_SYMBOL, 0, 4), (TOKEN_END, 4, 0)] ∧
    lexer_next exampleHeader (lexer_new none [105, 110, 116] (some (bytes "a.py"))) =
      some (⟨TOKEN_SYMBOL, 0, 3, ⟨0, 0⟩⟩,
        ⟨none, [105, 110, 116], 3, 0, 0, 0, FEXT_PYTHON, some (bytes "a.py")⟩) ∧
    ((⟨TOKEN_SYMBOL, 0, 3, ⟨0, 0⟩⟩ : Token).kind = TOKEN_KEYWORD ↔
      [105, 110, 116] ∈ exampleHeader.pyKeywords) ∧
    bytes "def" ∈ exampleHeader.pyKeywords ∧
    (lexer_scan exampleHeader 2 (lexer_new none (bytes "def") (some (bytes "Foo.py")))).map
      (List.map Token.shape) = some [(TOKEN_KEYWORD, 0, 3), (TOKEN_END, 3, 0)] :=
  ⟨by decide,
    (((lexer_next_keyword_exact exampleHeader).1
      (lexer_new none [105, 110, 116, 32, 120] none) ⟨TOKEN_KEYWORD, 0, 3, ⟨0, 0⟩⟩
      ⟨none, [105, 110, 116, 32, 120], 3, 0, 0, 0, FEXT_CPP, none⟩ (by decide)
      (Or.inr rfl)).1).mp rfl,
    by decide, by decide,
    (lexer_next_keyword_exact exampleHeader).2.1 none (by decide),
    (lexer_next_keyword_exact exampleHeader).2.2.1 none (by decide),
    by decide,
    ((lexer_next_keyword_exact exampleHeader).2.2.2.2.1
      (lexer_new none [105, 110, 116] (some (bytes "a.py"))) ⟨TOKEN_SYMBOL, 0, 3, ⟨0, 0⟩⟩
      ⟨none, [105, 110, 116], 3, 0, 0, 0, FEXT_PYTHON, some (bytes "a.py")⟩ (by decide)
      (Or.inl rfl)).2.2.1 (by decide),
    by decide,
    (lexer_next_keyword_exact exampleHeader).2.2.2.2.2.1 none (by decide)⟩

/-! ## Language selection -/

theorem strrchr_loop_none (c : Nat) (s : List Nat) (i : Nat) (last : Option Nat)
    (h : c ∉ s) : strrchr_loop c s i last = last := by
  induction s generalizing i last with
  | nil => rfl
  | cons b bs ih =>
    have hb : ¬ b = c := fun e => h (by rw [e]; exact List.mem_cons_self _ _)
    rw [strrchr_loop, if_neg hb]
    exact ih (i + 1) last (fun hm => h (List.mem_cons_of_mem _ hm))

theorem strrchr_loop_last (c : Nat) (pre ext : List Nat) (i : Nat) (last : Option Nat)
    (h : c ∉ ext) : strrchr_loop c (pre ++ c :: ext) i last = some (i + pre.length) := by
  induction pre generalizing i last with
  | nil =>
    rw [List.nil_append, strrchr_loop, if_pos rfl, strrchr_loop_none c ext _ _ h]
    rfl
  | cons b bs ih =>
    rw [List.cons_append, strrchr_loop, ih]
    simp only [List.length_cons]
    congr 1
    omega

/-- C6. The language that `lexer_new` selects depends on the path only. It is the
C-family default when the path is absent, has no `.`, or has its last `.` as
first character; otherwise the text after the last `.` selects Kotlin when it is
`kt` or `kts`, Python when `py`, Java when `java`, MiniConf when `miniconf`, and
the default for every other text. So `Foo.py` is Python, and `Foo`,
`Foo.unknownext` and `Foo.PY` are C-family. -/
theorem lexer_new_language (atlas : Option Free_Glyph_Atlas) (content : List Nat) :
    (lexer_new atlas content none).file_ext = FEXT_CPP ∧
    (∀ p, 46 ∉ p → (lexer_new atlas content (some p)).file_ext = FEXT_CPP) ∧
    (∀ ext, 46 ∉ ext → (lexer_new atlas content (some (46 :: ext))).file_ext = FEXT_CPP) ∧
    (∀ pre ext, pre ≠ [] → 46 ∉ ext →
      ((ext = bytes "kt" ∨ ext = bytes "kts") →
        (lexer_new atlas content (some (pre ++ 46 :: ext))).file_ext = FEXT_KOTLIN) ∧
      (ext = bytes "py" →
        (lexer_new atlas content (some (pre ++ 46 :: ext))).file_ext = FEXT_PYTHON) ∧
      (ext = bytes "java" →
        (lexer_new atlas content (some (pre ++ 46 :: ext))).file_ext = FEXT_JAVA) ∧
      (ext = bytes "miniconf" →
        (lexer_new atlas content (some (pre ++ 46 :: ext))).file_ext = FEXT_MINICONF) ∧
      (ext ∉ [bytes "kt", bytes "kts", bytes "py", bytes "java", bytes "miniconf"] →
        (lexer_new atlas content (some (pre ++ 46 :: ext))).file_ext = FEXT_CPP)) ∧
    (∀ atlas2 content2 file_path,
      (lexer_new atlas2 content2 file_path).file_ext
        = (lexer_new atlas content file_path).file_ext) ∧
    (lexer_new atlas content (some (bytes "Foo.py"))).file_ext = FEXT_PYTHON ∧
    (lexer_new atlas content (some (bytes "Foo"))).file_ext = FEXT_CPP ∧
    (lexer_new atlas content (some (bytes "Foo.unknownext"))).file_ext = FEXT_CPP ∧
    (lexer_new atlas content (some (bytes "Foo.PY"))).file_ext = FEXT_CPP := by
  have hnodot : ∀ (a : Option Free_Glyph_Atlas) (ct p : List Nat), 46 ∉ p →
      (lexer_new a ct (some p)).file_ext = FEXT_CPP := by
    intro a ct p hp
    unfold lexer_new
    simp only [strrchr, strrchr_loop_none 46 p 0 none hp]
  have hfirst : ∀ (a : Option Free_Glyph_Atlas) (ct ext : List Nat), 46 ∉ ext →
      (lexer_new a ct (some (46 :: ext))).file_ext = FEXT_CPP := by
    intro a ct ext hext
    have := strrchr_loop_last 46 [] ext 0 none hext
    unfold lexer_new
    simp only [strrchr]
    rw [List.nil_append] at this
    simp [this]
  have hext : ∀ (a : Option Free_Glyph_Atlas) (ct pre ext : List Nat), pre ≠ [] → 46 ∉ ext →
      (lexer_new a ct (some (pre ++ 46 :: ext))).file_ext =
        if ext = bytes "kt" ∨ ext = bytes "kts" then FEXT_KOTLIN
        else if ext = bytes "py" then FEXT_PYTHON
        else if ext = bytes "java" then FEXT_JAVA
        else if ext = bytes "miniconf" then FEXT_MINICONF
        else FEXT_CPP := by
    intro a ct pre ext hpre hdot
    have h1 := strrchr_loop_last 46 pre ext 0 none hdot
    have h2 : pre.length ≠ 0 := fun e => hpre (List.eq_nil_of_length_eq_zero e)
    have h3 : (pre ++ 46 :: ext).drop (pre.length + 1) = ext := by
      rw [← List.drop_drop, List.drop_left]
      rfl
    unfold lexer_new
    simp only [strrchr, h1, Nat.zero_add, ne_eq, h2, not_false_eq_true, if_true, h3]
    repeat' split
    all_goals rfl
  refine ⟨rfl, hnodot atlas content, hfirst atlas content, ?_, ?_, ?_, ?_, ?_, ?_⟩
  · intro pre ext hpre hdot
    have := hext atlas content pre ext hpre hdot
    refine ⟨?_, ?_, ?_, ?_, ?_⟩
    · intro h; rw [this, if_pos h]
    · intro h; rw [this, h]; decide
    · intro h; rw [this, h]; decide
    · intro h; rw [this, h]; decide
    · intro h
      simp only [List.mem_cons, List.mem_singleton, not_or, List.not_mem_nil, or_false] at h
      obtain ⟨a1, a2, a3, a4, a5⟩ := h
      rw [this, if_neg (by rintro (e | e); exact a1 e; exact a2 e), if_neg a3, if_neg a4,
        if_neg a5]
  · intro atlas2 content2 file_path
    cases file_path with
    | none => rfl
    | some p =>
      unfold lexer_new
      simp only []
      cases strrchr p 46 with
      | none => rfl
      | some dot =>
        simp only []
        repeat' split
        all_goals rfl
  · have e : bytes "Foo.py" = [70, 111, 111] ++ 46 :: bytes "py" := by decide
    rw [e, hext atlas content _ _ (by decide) (by decide)]
    decide
  · exact hnodot atlas content _ (by decide)
  · have e : bytes "Foo.unknownext" = [70, 111, 111] ++ 46 :: bytes "unknownext" := by decide
    rw [e, hext atlas content _ _ (by decide) (by decide)]
    decide
  · have e : bytes "Foo.PY" = [70, 111, 111] ++ 46 :: bytes "PY" := by decide
    rw [e, hext atlas content _ _ (by decide) (by decide)]
    decide

/-- Witness of C6: the paths `a.b.kts`, `.py` and `Makefile`. -/
theorem lexer_new_language_witness :
    (46 ∉ bytes "Makefile" ∧
      (lexer_new none [] (some (bytes "Makefile"))).file_ext = FEXT_CPP) ∧
    (46 ∉ bytes "py" ∧ (lexer_new none [] (some (46 :: bytes "py"))).file_ext = FEXT_CPP) ∧
    (bytes "a.b" ≠ [] ∧ 46 ∉ bytes "kts" ∧
      (lexer_new none [] (some (bytes "a.b" ++ 46 :: bytes "kts"))).file_ext = FEXT_KOTLIN) :=
  ⟨⟨by decide, (lexer_new_language none []).2.1 _ (by decide)⟩,
    ⟨by decide, (lexer_new_language none []).2.2.1 _ (by decide)⟩,
    ⟨by decide, by decide,
      ((lexer_new_language none []).2.2.2.1 (bytes "a.b") (bytes "kts") (by decide)
        (by decide)).1 (Or.inr rfl)⟩⟩

/-! ## Directives and comments -/

/-- The tokens of a scan, from the kinds, offsets and lengths that `ref_scan`
computes. -/
theorem lexer_scan_of_ref (H : Header) (n : Nat) (l : Lexer)
    (shapes : List (Token_Kind × Nat × Nat))
    (h : ref_scan (keywords_of H l.file_ext) n l.cursor l.rest = some shapes) :
    ∃ toks, lexer_scan H n l = some toks ∧
      toks.map (fun t => (t.kind, t.bytes_in l.content)) =
        shapes.map fun s => (s.1, slice l.content s.2.1 s.2.2) := by
  rw [← lexer_scan_shape] at h
  cases hs : lexer_scan H n l with
  | none => rw [hs] at h; simp at h
  | some toks =>
    rw [hs] at h
    simp only [Option.map_some', Option.some.injEq] at h
    exact ⟨toks, rfl, by rw [shape_bytes_in, h]⟩

/-- The text of a line-like lexeme: up to and including the first newline. -/
theorem line_text (pre post : List Nat) (h : 10 ∉ pre) :
    (pre ++ 10 :: post).takeWhile (fun b => b != 10) ++
      ((pre ++ 10 :: post).dropWhile (fun b => b != 10)).take 1 = pre ++ [10] := by
  have h1 : ∀ b ∈ pre, (b != 10) = true := by
    intro b hb
    have : b ≠ 10 := fun e => h (e ▸ hb)
    simp [this]
  have := takeWhile_append_stop (fun b => b != 10) pre 10 post h1 (by decide)
  rw [this.1, this.2]
  rfl

theorem line_text_all (r : List Nat) (h : 10 ∉ r) :
    r.takeWhile (fun b => b != 10) ++ (r.dropWhile (fun b => b != 10)).take 1 = r := by
  have h1 : ∀ b ∈ r, (b != 10) = true := by
    intro b hb
    have : b ≠ 10 := fun e => h (e ▸ hb)
    simp [this]
  have := takeWhile_all (fun b => b != 10) r h1
  rw [this.1, this.2]
  simp

/-- C7. When the bytes at the cursor after the whitespace skip begin with `//`,
`lexer_next` returns, whatever the language, a comment token whose text runs
from the first `/` through and including the next newline, or to the end of the
buffer when no newline follows; scanning `"hi" // c` with the C-family table
gives the string `"hi"`, the comment `// c` and the end token. -/
theorem lexer_next_comment (H : Header) :
    (∀ l r, l.lexeme_rest = 47 :: 47 :: r →
      (∀ pre post, r = pre ++ 10 :: post → 10 ∉ pre →
        lexer_next_yields H l TOKEN_COMMENT (47 :: 47 :: pre ++ [10])) ∧
      (10 ∉ r → lexer_next_yields H l TOKEN_COMMENT (47 :: 47 :: r))) ∧
    (∀ atlas, ∃ toks,
      lexer_scan H 3 (lexer_new atlas (bytes "\"hi\" // c") none) = some toks ∧
      toks.map (fun t => (t.kind, t.bytes_in (bytes "\"hi\" // c"))) =
        [(TOKEN_STRING, bytes "\"hi\""), (TOKEN_COMMENT, bytes "// c"), (TOKEN_END, [])]) := by
  constructor
  · intro l r h
    have base := lexer_next_yields_classify H l
    rw [h, classify_cons, if_neg (by decide), if_neg (by decide), if_pos ⟨rfl, rfl⟩] at base
    simp only [] at base
    rw [take_through_len] at base
    constructor
    · intro pre post hr hpre
      have := line_text (47 :: 47 :: pre) post (by simp [hpre])
      rw [hr] at base
      simp only [List.cons_append] at this base
      rw [this] at base
      exact base
    · intro hr
      have := line_text_all (47 :: 47 :: r) (by simp [hr])
      rw [this] at base
      exact base
  · intro atlas
    have hr : ref_scan (keywords_of H (lexer_new atlas (bytes "\"hi\" // c") none).file_ext) 3
        (lexer_new atlas (bytes "\"hi\" // c") none).cursor
        (lexer_new atlas (bytes "\"hi\" // c") none).rest =
        some [(TOKEN_STRING, 0, 4), (TOKEN_COMMENT, 5, 4), (TOKEN_END, 9, 0)] := by
      rw [lexer_new_eq]
      rfl
    obtain ⟨toks, h1, h2⟩ := lexer_scan_of_ref H 3 _ _ hr
    refine ⟨toks, h1, ?_⟩
    rw [lexer_new_content] at h2
    rw [h2]
    decide

/-- Witness of C7: the comment of the Python buffer `x // c`, newline, `y`. -/
theorem lexer_next_comment_witness :
    (⟨none, bytes "x // c\ny", 1, 0, 0, 0, FEXT_PYTHON, none⟩ : Lexer).lexeme_rest
      = 47 :: 47 :: (bytes " c" ++ 10 :: bytes "y") ∧ 10 ∉ bytes " c" ∧
    lexer_next_yields exampleHeader ⟨none, bytes "x // c\ny", 1, 0, 0, 0, FEXT_PYTHON, none⟩
      TOKEN_COMMENT (47 :: 47 :: bytes " c" ++ [10]) :=
  ⟨by decide, by decide,
    ((lexer_next_comment exampleHeader).1 ⟨none, bytes "x // c\ny", 1, 0, 0, 0, FEXT_PYTHON, none⟩
      (bytes " c" ++ 10 :: bytes "y") (by decide)).1 (bytes " c") (bytes "y") rfl (by decide)⟩

/-- C8. When the first byte at or after the cursor that is not whitespace is `#`,
`lexer_next` returns, whatever the language (Python included), a directive
token whose text runs from the `#` through and including the next newline, or to
the end of the buffer when no newline follows. -/
theorem lexer_next_preproc (H : Header) (l : Lexer) (r : List Nat)
    (h : l.lexeme_rest = 35 :: r) :
    (∀ pre post, r = pre ++ 10 :: post → 10 ∉ pre →
      lexer_next_yields H l TOKEN_PREPROC (35 :: pre ++ [10])) ∧
    (10 ∉ r → lexer_next_yields H l TOKEN_PREPROC (35 :: r)) := by
  have base := lexer_next_yields_classify H l
  rw [h, classify_cons, if_neg (by decide), if_pos rfl] at base
  simp only [] at base
  rw [take_through_len] at base
  constructor
  · intro pre post hr hpre
    have := line_text (35 :: pre) post (by simp [hpre])
    rw [hr] at base
    simp only [List.cons_append] at this base
    rw [this] at base
    exact base
  · intro hr
    have := line_text_all (35 :: r) (by simp [hr])
    rw [this] at base
    exact base

/-- Witness of C8: the first line of the buffer `#x`, newline, `y` of a Python
file. -/
theorem lexer_next_preproc_witness :
    (lexer_new none (bytes "#x\ny") (some (bytes "a.py"))).file_ext = FEXT_PYTHON ∧
    (lexer_new none (bytes "#x\ny") (some (bytes "a.py"))).lexeme_rest
      = 35 :: (bytes "x" ++ 10 :: bytes "y") ∧ 10 ∉ bytes "x" ∧
    lexer_next_yields exampleHeader (lexer_new none (bytes "#x\ny") (some (bytes "a.py")))
      TOKEN_PREPROC (35 :: bytes "x" ++ [10]) :=
  ⟨by decide, by decide, by decide,
    (lexer_next_preproc exampleHeader (lexer_new none (bytes "#x\ny") (some (bytes "a.py")))
      (bytes "x" ++ 10 :: bytes "y") (by decide)).1 (bytes "x") (bytes "y") rfl (by decide)⟩

/-! ## Fixed literals and the fallback -/

/-- C9. When the first byte at or after the cursor that is not whitespace is one
of `(`, `)`, `{`, `}`, `;`, `lexer_next` returns a token of length 1, that byte,
of kind open paren, close paren, open curly, close curly, semicolon
respectively, and the cursor ends just after the byte. Scanning `foo(){}`, `foo`
not being a keyword of the table in use, gives the symbol `foo`, open paren,
close paren, open curly, close curly and the end token. -/
theorem lexer_next_literal (H : Header) :
    (∀ l c r k, l.lexeme_rest = c :: r →
      (c, k) ∈ [(40, TOKEN_OPEN_PAREN), (41, TOKEN_CLOSE_PAREN), (123, TOKEN_OPEN_CURLY),
        (125, TOKEN_CLOSE_CURLY), (59, TOKEN_SEMICOLON)] →
      lexer_next_yields H l k [c] ∧
        ∃ tok l2, lexer_next H l = some (tok, l2) ∧ tok.kind = k ∧ tok.text_len = 1 ∧
          l2.cursor = tok.text + 1) ∧
    (∀ atlas file_path,
      bytes "foo" ∉
        keywords_of H (lexer_new atlas (bytes "foo()\x7b\x7d") file_path).file_ext →
      ∃ toks,
        lexer_scan H 6 (lexer_new atlas (bytes "foo()\x7b\x7d") file_path) = some toks ∧
        toks.map (fun t => (t.kind, t.bytes_in (bytes "foo()\x7b\x7d"))) =
          [(TOKEN_SYMBOL, bytes "foo"), (TOKEN_OPEN_PAREN, bytes "("),
            (TOKEN_CLOSE_PAREN, bytes ")"), (TOKEN_OPEN_CURLY, bytes "\x7b"),
            (TOKEN_CLOSE_CURLY, bytes "\x7d"), (TOKEN_END, [])]) := by
  constructor
  · intro l c r k h hck
    have base := lexer_next_yields_classify H l
    have hcl : classify (keywords_of H l.file_ext) (c :: r) = (k, 1) := by
      simp only [List.mem_cons, Prod.mk.injEq, List.mem_singleton, List.not_mem_nil,
        or_false] at hck
      rcases hck with ⟨rfl, rfl⟩ | ⟨rfl, rfl⟩ | ⟨rfl, rfl⟩ | ⟨rfl, rfl⟩ | ⟨rfl, rfl⟩ <;> rfl
    rw [h, hcl] at base
    simp only [List.take_succ_cons, List.take_zero] at base
    refine ⟨base, ?_⟩
    obtain ⟨tok, l2, h1, h2, -, h4, -, h6, -⟩ := base
    exact ⟨tok, l2, h1, h2, h4, by rw [h6, h4]; rfl⟩
  · intro atlas file_path hfoo
    generalize hkws :
      keywords_of H (lexer_new atlas (bytes "foo()\x7b\x7d") file_path).file_ext = kws at hfoo
    have e : bytes "foo()\x7b\x7d" = [102, 111, 111, 40, 41, 123, 125] := by decide
    have e2 : bytes "foo" = [102, 111, 111] := by decide
    rw [e2] at hfoo
    have hc : classify kws (List.dropWhile isspace [102, 111, 111, 40, 41, 123, 125])
        = (TOKEN_SYMBOL, 3) := by
      have d : List.dropWhile isspace [102, 111, 111, 40, 41, 123, 125]
          = [102, 111, 111, 40, 41, 123, 125] := by decide
      have t : List.takeWhile is_symbol [102, 111, 111, 40, 41, 123, 125]
          = [102, 111, 111] := by decide
      rw [d, classify_cons, t, if_neg hfoo]
      rfl
    have hr : ref_scan kws 6 0 [102, 111, 111, 40, 41, 123, 125] =
        some [(TOKEN_SYMBOL, 0, 3), (TOKEN_OPEN_PAREN, 3, 1), (TOKEN_CLOSE_PAREN, 4, 1),
          (TOKEN_OPEN_CURLY, 5, 1), (TOKEN_CLOSE_CURLY, 6, 1), (TOKEN_END, 7, 0)] := by
      rw [ref_scan_step kws 5 0 _ 0 TOKEN_SYMBOL 3 [40, 41, 123, 125] (by rfl) hc (by decide)
          (by rfl),
        ref_scan_step kws 4 _ _ 0 TOKEN_OPEN_PAREN 1 [41, 123, 125] (by rfl) (by rfl)
          (by decide) (by rfl),
        ref_scan_step kws 3 _ _ 0 TOKEN_CLOSE_PAREN 1 [123, 125] (by rfl) (by rfl)
          (by decide) (by rfl),
        ref_scan_step kws 2 _ _ 0 TOKEN_OPEN_CURLY 1 [125] (by rfl) (by rfl)
          (by decide) (by rfl),
        ref_scan_step kws 1 _ _ 0 TOKEN_CLOSE_CURLY 1 [] (by rfl) (by rfl)
          (by decide) (by rfl),
        ref_scan_end kws 0 _ [] 0 (by rfl) (by rfl)]
      rfl
    have hr2 : ref_scan
        (keywords_of H (lexer_new atlas (bytes "foo()\x7b\x7d") file_path).file_ext) 6
        (lexer_new atlas (bytes "foo()\x7b\x7d") file_path).cursor
        (lexer_new atlas (bytes "foo()\x7b\x7d") file_path).rest =
        some [(TOKEN_SYMBOL, 0, 3), (TOKEN_OPEN_PAREN, 3, 1), (TOKEN_CLOSE_PAREN, 4, 1),
          (TOKEN_OPEN_CURLY, 5, 1), (TOKEN_CLOSE_CURLY, 6, 1), (TOKEN_END, 7, 0)] := by
      rw [hkws, Lexer.rest, lexer_new_cursor, lexer_new_content, e]
      exact hr
    obtain ⟨toks, h1, h2⟩ := lexer_scan_of_ref H 6 _ _ hr2
    refine ⟨toks, h1, ?_⟩
    rw [lexer_new_content] at h2
    rw [h2]
    decide

/-- Witness of C9: the `;` of the buffer ` ;x`, and the scan of `foo(){}` with
the tables of `exampleHeader`. -/
theorem lexer_next_literal_witness :
    (lexer_new none (bytes " ;x") none).lexeme_rest = 59 :: bytes "x" ∧
    lexer_next_yields exampleHeader (lexer_new none (bytes " ;x") none) TOKEN_SEMICOLON [59] ∧
    bytes "foo" ∉
      keywords_of exampleHeader (lexer_new none (bytes "foo()\x7b\x7d") none).file_ext ∧
    ∃ toks,
      lexer_scan exampleHeader 6 (lexer_new none (bytes "foo()\x7b\x7d") none) = some toks ∧
      toks.map (fun t => (t.kind, t.bytes_in (bytes "foo()\x7b\x7d"))) =
        [(TOKEN_SYMBOL, bytes "foo"), (TOKEN_OPEN_PAREN, bytes "("),
          (TOKEN_CLOSE_PAREN, bytes ")"), (TOKEN_OPEN_CURLY, bytes "\x7b"),
          (TOKEN_CLOSE_CURLY, bytes "\x7d"), (TOKEN_END, [])] :=
  ⟨by decide,
    ((lexer_next_literal exampleHeader).1 (lexer_new none (bytes " ;x") none) 59 (bytes "x")
      TOKEN_SEMICOLON (by decide) (by decide)).1,
    by decide,
    (lexer_next_literal exampleHeader).2 none none (by decide)⟩

/-- C10. When the first byte at or after the cursor that is not whitespace is not
a double quote, not `#`, does not begin `//`, is none of `(`, `)`, `{`, `}`, `;`
and is neither alphabetic nor an underscore, `lexer_next` consumes that one byte
and returns an invalid token of length 1 whose text is the byte; this is so for
a `/` not followed by `/` and for every digit. A call of `lexer_next` always
returns. Scanning the single byte `@` gives the invalid token `@` and the end
token. -/
theorem lexer_next_invalid (H : Header) :
    (∀ l c r, l.lexeme_rest = c :: r → c ≠ 34 → c ≠ 35 → ¬ (c = 47 ∧ r.head? = some 47) →
      c ∉ [40, 41, 123, 125, 59] → isalpha c = false → c ≠ 95 →
      lexer_next_yields H l TOKEN_INVALID [c] ∧
        ∃ tok l2, lexer_next H l = some (tok, l2) ∧ tok.kind = TOKEN_INVALID ∧
          tok.text_len = 1 ∧ l2.cursor = tok.text + 1) ∧
    (∀ l r, l.lexeme_rest = 47 :: r → r.head? ≠ some 47 →
      lexer_next_yields H l TOKEN_INVALID [47]) ∧
    (∀ l c r, l.lexeme_rest = c :: r → 48 ≤ c → c ≤ 57 →
      lexer_next_yields H l TOKEN_INVALID [c]) ∧
    (∀ l, (lexer_next H l).isSome = true) ∧
    (∀ atlas file_path, ∃ toks,
      lexer_scan H 2 (lexer_new atlas (bytes "@") file_path) = some toks ∧
      toks.map (fun t => (t.kind, t.bytes_in (bytes "@"))) =
        [(TOKEN_INVALID, bytes "@"), (TOKEN_END, [])]) := by
  have main : ∀ l c r, l.lexeme_rest = c :: r → c ≠ 34 → c ≠ 35 →
      ¬ (c = 47 ∧ r.head? = some 47) → c ∉ [40, 41, 123, 125, 59] → isalpha c = false →
      c ≠ 95 → lexer_next_yields H l TOKEN_INVALID [c] := by
    intro l c r h h34 h35 h47 hlit halpha h95
    have base := lexer_next_yields_classify H l
    have hlk : literal_kind c = none := by
      simp only [List.mem_cons, List.mem_singleton, List.not_mem_nil, or_false, not_or] at hlit
      obtain ⟨a1, a2, a3, a4, a5⟩ := hlit
      simp [literal_kind, a1, a2, a3, a4, a5]
    have hs : ¬ is_symbol_start c = true := by
      simp [is_symbol_start, halpha, h95]
    rw [h, classify_cons, if_neg h34, if_neg h35, if_neg h47, hlk] at base
    simp only [] at base
    rw [if_neg hs] at base
    simpa using base
  refine ⟨?_, ?_, ?_, ?_, ?_⟩
  · intro l c r h h34 h35 h47 hlit halpha h95
    have base := main l c r h h34 h35 h47 hlit halpha h95
    refine ⟨base, ?_⟩
    obtain ⟨tok, l2, h1, h2, -, h4, -, h6, -⟩ := base
    exact ⟨tok, l2, h1, h2, h4, by rw [h6, h4]; rfl⟩
  · intro l r h hr
    exact main l 47 r h (by decide) (by decide) (fun hh => hr hh.2) (by decide) (by decide)
      (by decide)
  · intro l c r h h1 h2
    refine main l c r h (by omega) (by omega) (fun hh => by omega) ?_ ?_ (by omega)
    · simp only [List.mem_cons, List.mem_singleton, List.not_mem_nil, or_false, not_or]
      omega
    · simp only [isalpha, Bool.or_eq_false_iff, Bool.and_eq_false_imp, decide_eq_true_eq,
        decide_eq_false_iff_not]
      omega
  · intro l
    rw [lexer_next_eq]
    rfl
  · intro atlas file_path
    have hr : ref_scan (keywords_of H (lexer_new atlas (bytes "@") file_path).file_ext) 2
        (lexer_new atlas (bytes "@") file_path).cursor
        (lexer_new atlas (bytes "@") file_path).rest =
        some [(TOKEN_INVALID, 0, 1), (TOKEN_END, 1, 0)] := by
      rw [Lexer.rest, lexer_new_cursor, lexer_new_content]
      rfl
    obtain ⟨toks, h1, h2⟩ := lexer_scan_of_ref H 2 _ _ hr
    refine ⟨toks, h1, ?_⟩
    rw [lexer_new_content] at h2
    rw [h2]
    decide

/-- Witness of C10: the digit `7` of the buffer ` 7a` and the `/` of `/a`. -/
theorem lexer_next_invalid_witness :
    ((lexer_new none (bytes " 7a") none).lexeme_rest = 55 :: bytes "a" ∧
      lexer_next_yields exampleHeader (lexer_new none (bytes " 7a") none) TOKEN_INVALID [55]) ∧
    ((lexer_new none (bytes "/a") none).lexeme_rest = 47 :: bytes "a" ∧
      (bytes "a").head? ≠ some 47 ∧
      lexer_next_yields exampleHeader (lexer_new none (bytes "/a") none) TOKEN_INVALID [47]) :=
  ⟨⟨by decide,
      ((lexer_next_invalid exampleHeader).1 (lexer_new none (bytes " 7a") none) 55 (bytes "a")
        (by decide) (by decide) (by decide) (by decide) (by decide) (by decide)
        (by decide)).1⟩,
    ⟨by decide, by decide,
      (lexer_next_invalid exampleHeader).2.1 (lexer_new none (bytes "/a") none) (bytes "a")
        (by decide) (by decide)⟩⟩

/-! ## The end of the content -/

theorem end_iff_rest_space (H : Header) (l : Lexer) :
    (next_token H l).kind = TOKEN_END ↔ ∀ b ∈ l.content.drop l.cursor, isspace b = true := by
  show (classify (keywords_of H l.file_ext) l.lexeme_rest).1 = TOKEN_END ↔ _
  rw [classify_end_iff, Lexer.lexeme_rest, List.dropWhile_eq_nil_iff]
  rfl

theorem ws_len_of_end (H : Header) (l : Lexer) (h : (next_token H l).kind = TOKEN_END) :
    ws_len l.rest = l.content_len - l.cursor ∧
      (classify (keywords_of H l.file_ext) l.lexeme_rest).2 = 0 := by
  have hnil : l.lexeme_rest = [] := (classify_end_iff _ _).mp h
  have hlen := lexeme_rest_length l
  have hle := ws_len_le l.rest
  rw [hnil] at hlen
  simp only [List.length_nil] at hlen
  rw [rest_length] at hlen hle
  refine ⟨by omega, ?_⟩
  rw [hnil]
  rfl

/-- C11. From a state with `cursor ≤ content_len`, the token that `lexer_next`
returns has kind end exactly when every byte from the cursor to the end of the
buffer is whitespace (also when no byte is left); that end token has `text_len`
zero and its text is at offset `content_len`. -/
theorem lexer_next_end_iff (H : Header) (l : Lexer) (h : l.cursor ≤ l.content_len) :
    ∃ tok l2, lexer_next H l = some (tok, l2) ∧
      (tok.kind = TOKEN_END ↔ ∀ b ∈ l.content.drop l.cursor, isspace b = true) ∧
      (tok.kind = TOKEN_END → tok.text_len = 0 ∧ tok.text = l.content_len) := by
  refine ⟨next_token H l, next_state H l, lexer_next_eq H l, end_iff_rest_space H l, ?_⟩
  intro hend
  have hw := ws_len_of_end H l hend
  constructor
  · exact hw.2
  · show l.cursor + ws_len l.rest = l.content_len
    rw [hw.1]
    omega

/-- Witness of C11: the state at offset 1 of the buffer `a`, space, newline. -/
theorem lexer_next_end_iff_witness :
    (⟨none, [97, 32, 10], 1, 0, 0, 0, FEXT_CPP, none⟩ : Lexer).cursor
      ≤ (⟨none, [97, 32, 10], 1, 0, 0, 0, FEXT_CPP, none⟩ : Lexer).content_len ∧
    ∃ tok l2, lexer_next exampleHeader ⟨none, [97, 32, 10], 1, 0, 0, 0, FEXT_CPP, none⟩
        = some (tok, l2) ∧
      (tok.kind = TOKEN_END ↔ ∀ b ∈ ([97, 32, 10] : List Nat).drop 1, isspace b = true) ∧
      (tok.kind = TOKEN_END → tok.text_len = 0 ∧ tok.text = 3) :=
  ⟨by decide,
    lexer_next_end_iff exampleHeader ⟨none, [97, 32, 10], 1, 0, 0, 0, FEXT_CPP, none⟩
      (by decide)⟩

/-- C12 (as amended). When a call of `lexer_next` returns the end token, every
byte that was left from the cursor on is whitespace and has been consumed: the
cursor after the call is the cursor before it plus the number of bytes that
were left, which is `content_len` for a state within the buffer. The cursor is
unchanged, and so is the whole state, when no byte was left. -/
theorem lexer_next_end_cursor (H : Header) (l : Lexer) (tok : Token) (l2 : Lexer)
    (hn : lexer_next H l = some (tok, l2)) (hk : tok.kind = TOKEN_END) :
    l2.cursor = l.cursor + (l.content.drop l.cursor).length ∧
      (∀ b ∈ l.content.drop l.cursor, isspace b = true) ∧
      (l.cursor ≤ l.content_len → l2.cursor = l.content_len) ∧
      (l.content_len ≤ l.cursor → l2 = l) := by
  rw [lexer_next_eq] at hn
  simp only [Option.some.injEq, Prod.mk.injEq] at hn
  obtain ⟨rfl, rfl⟩ := hn
  have hw := ws_len_of_end H l hk
  have hcur : (next_state H l).cursor = l.cursor + (l.content_len - l.cursor) := by
    rw [next_state_cursor, hw.1, hw.2]
    rfl
  refine ⟨?_, (end_iff_rest_space H l).mp hk, ?_, ?_⟩
  · rw [hcur, List.length_drop]
  · intro h
    rw [hcur]
    omega
  · intro h
    have h0 : l.content_len - l.cursor = 0 := by omega
    show advance H l (ws_len l.rest + _) = l
    rw [hw.1, hw.2, h0]
    rfl

/-- Witness of C12: the end token of the buffer of one space. -/
theorem lexer_next_end_cursor_witness :
    lexer_next exampleHeader (lexer_new none [32] none) =
      some (⟨TOKEN_END, 1, 0, ⟨0, 0⟩⟩, ⟨none, [32], 1, 0, 0, 0, FEXT_CPP, none⟩) ∧
    (1 = 0 + (([32] : List Nat).drop 0).length ∧
      (∀ b ∈ ([32] : List Nat).drop 0, isspace b = true) ∧
      ((0 : Nat) ≤ 1 → (1 : Nat) = 1) ∧
      ((1 : Nat) ≤ 0 → (⟨none, [32], 1, 0, 0, 0, FEXT_CPP, none⟩ : Lexer)
        = lexer_new none [32] none)) :=
  ⟨by decide,
    lexer_next_end_cursor exampleHeader (lexer_new none [32] none) ⟨TOKEN_END, 1, 0, ⟨0, 0⟩⟩
      ⟨none, [32], 1, 0, 0, 0, FEXT_CPP, none⟩ (by decide) rfl⟩

/-- Counterexample to C12 as stated: on the buffer of one space, from cursor 0,
the call returns the end token and leaves the cursor at 1. -/
theorem end_keeps_cursor_counterexample :
    ¬ end_keeps_cursor_as_claimed exampleHeader (lexer_new none [32] none) := by
  intro hc
  have h := hc ⟨TOKEN_END, 1, 0, ⟨0, 0⟩⟩ ⟨none, [32], 1, 0, 0, 0, FEXT_CPP, none⟩
    (by decide) rfl
  revert h
  decide

/-! ## No fault, and the end token again -/

theorem lexer_chop_char_fault (H : Header) (n : Nat) (l : Lexer)
    (h : l.cursor ≤ l.content_len) (hn : l.content_len < l.cursor + n) :
    lexer_chop_char H l n = none := by
  induction n generalizing l with
  | zero => omega
  | succ n ih =>
    rw [lexer_chop_char]
    by_cases hlt : l.cursor < l.content_len
    · obtain ⟨c, hc, -, -⟩ := rest_cons_of_lt l hlt
      rw [if_pos hlt, hc]
      apply ih
      · simp only [chop_step_cursor, Lexer.content_len, chop_step_content]
        exact hlt
      · simp only [chop_step_cursor, Lexer.content_len, chop_step_content]
        simp only [Lexer.content_len] at hn
        omega
    · rw [if_neg hlt]

/-- C17. From a state with `cursor ≤ content_len`, `lexer_next` runs without a
fault (no failed `assert` in `lexer_chop_char`, no read at or past
`content_len`; either would make the result `none`), as does the whitespace skip
at its start, and the state after the call has `cursor ≤ content_len` again, in
the same buffer. The `assert` is not idle: consuming past `content_len` is a
fault. -/
theorem lexer_next_no_fault (H : Header) (l : Lexer) (h : l.cursor ≤ l.content_len) :
    (∃ tok l2, lexer_next H l = some (tok, l2) ∧ l2.cursor ≤ l2.content_len ∧
      l2.content = l.content) ∧
    (∃ l1, lexer_trim_left H l = some l1 ∧ l1.cursor ≤ l1.content_len) ∧
    (∀ n, l.cursor + n ≤ l.content_len → ∃ l1, lexer_chop_char H l n = some l1 ∧
      l1.cursor = l.cursor + n) ∧
    (∀ n, l.content_len < l.cursor + n → lexer_chop_char H l n = none) := by
  refine ⟨⟨next_token H l, next_state H l, lexer_next_eq H l, ?_, next_state_content H l⟩,
    ⟨advance H l (l.rest.takeWhile isspace).length,
      lexer_chop_while_eq H isspace _ l (Nat.le_refl _), ?_⟩, ?_, ?_⟩
  · have := next_state_cursor_le H l h
    simp only [Lexer.content_len, next_state_content] at this ⊢
    exact this
  · have := ws_len_le l.rest
    rw [rest_length] at this
    unfold ws_len at this
    have h2 : l.cursor ≤ l.content.length := h
    simp only [Lexer.content_len, advance_content, advance_cursor] at this ⊢
    omega
  · intro n hn
    exact ⟨advance H l n, lexer_chop_char_eq H l n hn, advance_cursor H l n⟩
  · intro n hn
    exact lexer_chop_char_fault H n l h hn

/-- Witness of C17: the state at offset 2 of the buffer `ab(`. -/
theorem lexer_next_no_fault_witness :
    (⟨none, [97, 98, 40], 2, 0, 0, 0, FEXT_CPP, none⟩ : Lexer).cursor
      ≤ (⟨none, [97, 98, 40], 2, 0, 0, 0, FEXT_CPP, none⟩ : Lexer).content_len ∧
    (∃ tok l2, lexer_next exampleHeader ⟨none, [97, 98, 40], 2, 0, 0, 0, FEXT_CPP, none⟩
        = some (tok, l2) ∧ l2.cursor ≤ l2.content_len ∧ l2.content = [97, 98, 40]) :=
  ⟨by decide,
    (lexer_next_no_fault exampleHeader ⟨none, [97, 98, 40], 2, 0, 0, 0, FEXT_CPP, none⟩
      (by decide)).1⟩

theorem next_of_end (H : Header) (l : Lexer) (h : (next_token H l).kind = TOKEN_END) :
    next_token H (next_state H l) = next_token H l ∧
      next_state H (next_state H l) = next_state H l := by
  have hnil : l.lexeme_rest = [] := (classify_end_iff _ _).mp h
  have hs : next_state H l = advance H l (ws_len l.rest) := by
    unfold next_state
    rw [hnil]
    rfl
  have hr2 : (next_state H l).rest = [] := by rw [hs, lexeme_rest_eq, hnil]
  have hl2 : (next_state H l).lexeme_rest = [] := by
    rw [Lexer.lexeme_rest, hr2]
    rfl
  constructor
  · unfold next_token
    simp only [hl2, hnil, hr2, ws_len, List.takeWhile_nil, List.length_nil, Nat.add_zero,
      advance_zero, classify]
    rw [hs]
    simp only [advance_cursor, ws_len]
  · show advance H (next_state H l) _ = _
    rw [hl2, hr2]
    rfl

/-- C18. Once a call of `lexer_next` has returned the end token, every later call
on the resulting state returns the same token (kind, offset, zero length and
position) and leaves the state, so cursor, line, bol and x, unchanged. -/
theorem lexer_next_end_absorbing (H : Header) (l : Lexer) (tok : Token) (l2 : Lexer)
    (hn : lexer_next H l = some (tok, l2)) (hk : tok.kind = TOKEN_END) :
    lexer_next H l2 = some (tok, l2) ∧
      ∀ n, lexer_run H n l2 = some (List.replicate n tok, l2) := by
  rw [lexer_next_eq] at hn
  simp only [Option.some.injEq, Prod.mk.injEq] at hn
  obtain ⟨rfl, rfl⟩ := hn
  have h := next_of_end H l hk
  have h1 : lexer_next H (next_state H l) = some (next_token H l, next_state H l) := by
    rw [lexer_next_eq, h.1, h.2]
  refine ⟨h1, ?_⟩
  intro n
  induction n with
  | zero => rfl
  | succ n ih =>
    rw [lexer_run_succ, h.2, h.1, ih, Option.some_bind]
    rfl

/-- Witness of C18: the end token of the buffer `a`, space, from offset 1. -/
theorem lexer_next_end_absorbing_witness :
    lexer_next exampleHeader ⟨none, [97, 32], 1, 0, 0, 0, FEXT_CPP, none⟩ =
      some (⟨TOKEN_END, 2, 0, ⟨0, 0⟩⟩, ⟨none, [97, 32], 2, 0, 0, 0, FEXT_CPP, none⟩) ∧
    lexer_next exampleHeader ⟨none, [97, 32], 2, 0, 0, 0, FEXT_CPP, none⟩ =
      some (⟨TOKEN_END, 2, 0, ⟨0, 0⟩⟩, ⟨none, [97, 32], 2, 0, 0, 0, FEXT_CPP, none⟩) ∧
    ∀ n, lexer_run exampleHeader n ⟨none, [97, 32], 2, 0, 0, 0, FEXT_CPP, none⟩ =
      some (List.replicate n ⟨TOKEN_END, 2, 0, ⟨0, 0⟩⟩,
        ⟨none, [97, 32], 2, 0, 0, 0, FEXT_CPP, none⟩) :=
  ⟨by decide,
    lexer_next_end_absorbing exampleHeader ⟨none, [97, 32], 1, 0, 0, 0, FEXT_CPP, none⟩
      ⟨TOKEN_END, 2, 0, ⟨0, 0⟩⟩ ⟨none, [97, 32], 2, 0, 0, 0, FEXT_CPP, none⟩ (by decide) rfl⟩

/-! ## Line, bol and x are derived from the cursor -/

theorem chop_step_newline (H : Header) (l : Lexer) :
    chop_step H l 10 =
      { l with cursor := l.cursor + 1, line := l.line + 1, bol := l.cursor + 1, x := 0 } := by
  simp [chop_step]

theorem chop_step_other (H : Header) (l : Lexer) (x : Nat) (hx : x ≠ 10) :
    (chop_step H l x).line = l.line ∧ (chop_step H l x).bol = l.bol ∧
      (∀ atlas, l.atlas = some atlas → (chop_step H l x).x = l.x + glyph_advance H atlas x) ∧
      (l.atlas = none → (chop_step H l x).x = l.x) := by
  unfold chop_step
  cases ha : l.atlas with
  | none => simp [hx, ha]
  | some a => simp [hx, ha, glyph_advance]

theorem take_succ_getElem (content : List Nat) (c b : Nat) (hb : content[c]? = some b) :
    content.take (c + 1) = content.take c ++ [b] := by
  rw [List.take_succ, hb]
  rfl

theorem slice_succ (content : List Nat) (bol c b : Nat) (hle : bol ≤ c)
    (hb : content[c]? = some b) :
    slice content bol (c + 1 - bol) = slice content bol (c - bol) ++ [b] := by
  have e : c + 1 - bol = (c - bol) + 1 := by omega
  unfold slice
  rw [e]
  apply take_succ_getElem
  rw [List.getElem?_drop]
  have : bol + (c - bol) = c := by omega
  rw [this, hb]

theorem advance_sum_append (H : Header) (atlas : Free_Glyph_Atlas) (bs : List Nat) (b : Nat) :
    advance_sum H atlas (bs ++ [b]) = advance_sum H atlas bs + glyph_advance H atlas b := by
  simp [advance_sum, List.foldl_append]

/-- Consuming one byte within the buffer keeps `line`, `bol` and `x` derived. -/
theorem tracked_chop_step (H : Header) (l : Lexer) (h : l.cursor < l.content_len)
    (hl : line_tracked l) (hx : x_tracked H l) :
    line_tracked (chop_step H l (l.content.getD l.cursor 0)) ∧
      x_tracked H (chop_step H l (l.content.getD l.cursor 0)) := by
  obtain ⟨b, hb, hd, -⟩ := rest_cons_of_lt l h
  obtain ⟨h1, h2, h3, h4⟩ := hl
  obtain ⟨hx1, hx2⟩ := hx
  rw [hd]
  have htake := take_succ_getElem l.content l.cursor b hb
  by_cases hnl : b = 10
  · subst hnl
    rw [chop_step_newline]
    refine ⟨⟨?_, Nat.le_refl _, Or.inr ?_, ?_⟩, ?_, ?_⟩
    · show l.line + 1 = (l.content.take (l.cursor + 1)).count 10
      rw [htake, List.count_append, h1]
      rfl
    · show l.content[l.cursor + 1 - 1]? = some 10
      rw [Nat.add_sub_cancel]
      exact hb
    · intro i hi1 hi2
      have hi1' : l.cursor + 1 ≤ i := hi1
      have hi2' : i < l.cursor + 1 := hi2
      omega
    · intro atlas _
      show (0 : Int) = advance_sum H atlas (slice l.content (l.cursor + 1)
        (l.cursor + 1 - (l.cursor + 1)))
      rw [Nat.sub_self]
      simp [slice, advance_sum]
    · intro _
      rfl
  · obtain ⟨c1, c2, c3, c4⟩ := chop_step_other H l b hnl
    refine ⟨⟨?_, ?_, ?_, ?_⟩, ?_, ?_⟩
    · have h0 : List.count 10 [b] = 0 :=
        List.count_eq_zero.mpr (fun hm => hnl (List.mem_singleton.mp hm).symm)
      rw [c1, chop_step_cursor, chop_step_content, htake, List.count_append, h1, h0]
      rfl
    · rw [c2, chop_step_cursor]
      omega
    · rw [c2, chop_step_content]
      exact h3
    · intro i hi1 hi2
      rw [c2] at hi1
      rw [chop_step_cursor] at hi2
      rw [chop_step_content]
      by_cases hi : i < l.cursor
      · exact h4 i hi1 hi
      · have : i = l.cursor := by omega
        rw [this, hb]
        intro hh
        exact hnl (Option.some.inj hh)
    · intro atlas ha
      rw [chop_step_atlas] at ha
      rw [c3 atlas ha, c2, chop_step_cursor, chop_step_content,
        slice_succ l.content l.bol l.cursor b h2 hb, advance_sum_append, hx1 atlas ha]
    · intro ha
      rw [chop_step_atlas] at ha
      rw [c4 ha, hx2 ha]

/-- Consuming `k` bytes within the buffer keeps `line`, `bol` and `x` derived. -/
theorem tracked_advance (H : Header) (k : Nat) (l : Lexer) (h : l.cursor + k ≤ l.content_len)
    (hl : line_tracked l) (hx : x_tracked H l) :
    line_tracked (advance H l k) ∧ x_tracked H (advance H l k) := by
  induction k generalizing l with
  | zero => exact ⟨hl, hx⟩
  | succ k ih =>
    have hlt : l.cursor < l.content_len := by omega
    have hs := tracked_chop_step H l hlt hl hx
    rw [advance_succ]
    apply ih _ _ hs.1 hs.2
    simp only [chop_step_cursor, Lexer.content_len, chop_step_content]
    simp only [Lexer.content_len] at h
    omega

theorem tracked_new (H : Header) (atlas : Option Free_Glyph_Atlas) (content : List Nat)
    (file_path : Option (List Nat)) :
    line_tracked (lexer_new atlas content file_path) ∧
      x_tracked H (lexer_new atlas content file_path) := by
  rw [lexer_new_eq]
  refine ⟨⟨?_, Nat.le_refl _, Or.inl rfl, ?_⟩, ?_, ?_⟩
  · simp
  · intro i _ hi
    exact absurd hi (Nat.not_lt_zero i)
  · intro a _
    simp [slice, advance_sum]
  · intro _
    rfl

theorem lexer_run_some (H : Header) (n : Nat) (l : Lexer) :
    ∃ toks lN, lexer_run H n l = some (toks, lN) := by
  induction n generalizing l with
  | zero => exact ⟨[], l, rfl⟩
  | succ n ih =>
    obtain ⟨ts, l2, h⟩ := ih (next_state H l)
    exact ⟨next_token H l :: ts, l2, by rw [lexer_run_succ, h]; rfl⟩

/-- The state after some calls is the state after consuming some number of bytes
within the buffer, and the position of every token returned is read off such a
state at the first byte of the token. -/
theorem lexer_run_advance (H : Header) (n : Nat) (l : Lexer) (toks : List Token)
    (lN : Lexer) (h : l.cursor ≤ l.content_len) (hr : lexer_run H n l = some (toks, lN)) :
    ∃ k, lN = advance H l k ∧ l.cursor + k ≤ l.content_len ∧
      ∀ t ∈ toks, ∃ j, l.cursor + j ≤ l.content_len ∧ t.text = l.cursor + j ∧
        t.position = ⟨(advance H l j).x,
          line_y H (advance H l j).line⟩ := by
  induction n generalizing l toks with
  | zero =>
    simp only [lexer_run, Option.some.injEq, Prod.mk.injEq] at hr
    obtain ⟨rfl, rfl⟩ := hr
    exact ⟨0, rfl, h, by simp⟩
  | succ n ih =>
    rw [lexer_run_succ] at hr
    obtain ⟨ts, l2, hrun⟩ := lexer_run_some H n (next_state H l)
    rw [hrun, Option.some_bind] at hr
    simp only [Option.some.injEq, Prod.mk.injEq] at hr
    obtain ⟨rfl, rfl⟩ := hr
    have hle := next_state_cursor_le H l h
    have hc : (next_state H l).content_len = l.content_len := by
      simp only [Lexer.content_len, next_state_content]
    have hcur := next_state_cursor H l
    obtain ⟨k, hk1, hk2, hk3⟩ := ih (next_state H l) ts (by rw [hc]; exact hle) hrun
    rw [hc] at hk2
    refine ⟨ws_len l.rest + (classify (keywords_of H l.file_ext) l.lexeme_rest).2 + k,
      ?_, by omega, ?_⟩
    · rw [hk1, advance_add]
      rfl
    · intro t ht
      rcases List.mem_cons.mp ht with rfl | ht
      · have := ws_len_le l.rest
        rw [rest_length] at this
        exact ⟨ws_len l.rest, by omega, rfl, rfl⟩
      · obtain ⟨j, hj1, hj2, hj3⟩ := hk3 t ht
        rw [hc] at hj1
        refine ⟨ws_len l.rest + (classify (keywords_of H l.file_ext) l.lexeme_rest).2 + j,
          by omega, by omega, ?_⟩
        rw [hj3, advance_add]
        rfl

theorem lexer_new_atlas (atlas : Option Free_Glyph_Atlas) (content : List Nat)
    (file_path : Option (List Nat)) : (lexer_new atlas content file_path).atlas = atlas := by
  rw [lexer_new_eq]

/-- After any number of calls from a fresh lexer, the state and the positions of
the tokens are derived from the buffer. -/
theorem lexer_run_tracked (H : Header) (atlas : Option Free_Glyph_Atlas) (content : List Nat)
    (file_path : Option (List Nat)) (n : Nat) :
    ∃ toks lN, lexer_run H n (lexer_new atlas content file_path) = some (toks, lN) ∧
      lN.content = content ∧ lN.atlas = atlas ∧ lN.cursor ≤ content.length ∧
      line_tracked lN ∧ x_tracked H lN ∧
      ∀ t ∈ toks, ∃ l1, l1.content = content ∧ l1.atlas = atlas ∧ l1.cursor = t.text ∧
        line_tracked l1 ∧ x_tracked H l1 ∧
        t.position = ⟨l1.x, line_y H l1.line⟩ := by
  obtain ⟨toks, lN, hrun⟩ := lexer_run_some H n (lexer_new atlas content file_path)
  have hcur := lexer_new_cursor atlas content file_path
  have hcon := lexer_new_content atlas content file_path
  have hatl := lexer_new_atlas atlas content file_path
  have hnew := tracked_new H atlas content file_path
  have hlen : (lexer_new atlas content file_path).content_len = content.length := by
    simp only [Lexer.content_len, hcon]
  obtain ⟨k, hk1, hk2, hk3⟩ := lexer_run_advance H n _ toks lN
    (by rw [hcur]; exact Nat.zero_le _) hrun
  rw [hcur, hlen] at hk2
  have ht := tracked_advance H k _ (by rw [hcur, hlen]; exact hk2) hnew.1 hnew.2
  rw [← hk1] at ht
  refine ⟨toks, lN, hrun, ?_, ?_, ?_, ht.1, ht.2, ?_⟩
  · rw [hk1, advance_content, hcon]
  · rw [hk1, advance_atlas, hatl]
  · rw [hk1, advance_cursor, hcur]; omega
  · intro t htm
    obtain ⟨j, hj1, hj2, hj3⟩ := hk3 t htm
    rw [hcur, hlen] at hj1
    have htj := tracked_advance H j _ (by rw [hcur, hlen]; exact hj1) hnew.1 hnew.2
    refine ⟨advance H (lexer_new atlas content file_path) j, ?_, ?_, ?_, htj.1, htj.2, hj3⟩
    · rw [advance_content, hcon]
    · rw [advance_atlas, hatl]
    · rw [advance_cursor, hj2]

/-- C13. After any number of calls of `lexer_next` from a fresh lexer, the cursor
is within the buffer, `line` is the number of newline bytes in
`content[0, cursor)` and `bol` is the offset just after the last of them, or 0
when there is none (`line_tracked`); the same holds after any `lexer_chop_char`
within the buffer from such a state, which adds to `line` exactly the number of
newline bytes that it consumes. -/
theorem lexer_line_tracking (H : Header) (atlas : Option Free_Glyph_Atlas)
    (content : List Nat) (file_path : Option (List Nat)) (n : Nat) :
    ∃ toks lN, lexer_run H n (lexer_new atlas content file_path) = some (toks, lN) ∧
      lN.cursor ≤ content.length ∧
      lN.line = (content.take lN.cursor).count 10 ∧
      lN.bol ≤ lN.cursor ∧
      (lN.bol = 0 ∨ content[lN.bol - 1]? = some 10) ∧
      (∀ i, lN.bol ≤ i → i < lN.cursor → content[i]? ≠ some 10) ∧
      (∀ k, lN.cursor + k ≤ content.length →
        ∃ l2, lexer_chop_char H lN k = some l2 ∧ line_tracked l2 ∧
          l2.line = lN.line + (slice content lN.cursor k).count 10) := by
  obtain ⟨toks, lN, hrun, hcon, -, hle, hl, hx, -⟩ :=
    lexer_run_tracked H atlas content file_path n
  have hl' := hl
  obtain ⟨h1, h2, h3, h4⟩ := hl'
  rw [hcon] at h1 h3 h4
  refine ⟨toks, lN, hrun, hle, h1, h2, h3, h4, ?_⟩
  intro k hk
  have hb : lN.cursor + k ≤ lN.content_len := by
    simp only [Lexer.content_len, hcon]; exact hk
  have ht := tracked_advance H k lN hb hl hx
  refine ⟨advance H lN k, lexer_chop_char_eq H lN k hb, ht.1, ?_⟩
  rw [ht.1.1, advance_content, advance_cursor, hcon, h1, List.take_add, List.count_append]
  rfl

/-- Witness of C13: after two calls on the buffer `a`, newline, `b`, and a
`lexer_chop_char` of no byte from there. -/
theorem lexer_line_tracking_witness :
    ∃ toks lN, lexer_run exampleHeader 2 (lexer_new none [97, 10, 98] none) = some (toks, lN) ∧
      lN.line = (([97, 10, 98] : List Nat).take lN.cursor).count 10 ∧
      ∃ l2, lexer_chop_char exampleHeader lN 0 = some l2 ∧ line_tracked l2 := by
  obtain ⟨toks, lN, h1, h2, h3, -, -, -, h7⟩ :=
    lexer_line_tracking exampleHeader none [97, 10, 98] none 2
  obtain ⟨l2, h8, h9, -⟩ := h7 0 h2
  exact ⟨toks, lN, h1, h3, l2, h8, h9⟩

/-- C14. After any number of calls of `lexer_next` from a fresh lexer: with an
atlas, `x` is the sum from left to right of the advance widths of the bytes of
`content[bol, cursor)`, a byte at or beyond the capacity counting with the width
of `?`; without an atlas, `x` is 0 and the `position.x` of every token returned
is 0. -/
theorem lexer_x_tracking (H : Header) (atlas : Option Free_Glyph_Atlas)
    (content : List Nat) (file_path : Option (List Nat)) (n : Nat) :
    ∃ toks lN, lexer_run H n (lexer_new atlas content file_path) = some (toks, lN) ∧
      (∀ a, atlas = some a →
        lN.x = (slice content lN.bol (lN.cursor - lN.bol)).foldl
          (fun acc b => acc + glyph_advance H a b) 0) ∧
      (atlas = none → lN.x = 0 ∧ ∀ t ∈ toks, t.position.x = 0) ∧
      (∀ a b, glyph_advance H a b =
        if H.GLYPH_METRICS_CAPACITY ≤ b then (a.metrics.getD 63 ⟨0⟩).ax
        else (a.metrics.getD b ⟨0⟩).ax) := by
  obtain ⟨toks, lN, hrun, hcon, hatl, -, -, hx, htoks⟩ :=
    lexer_run_tracked H atlas content file_path n
  refine ⟨toks, lN, hrun, ?_, ?_, ?_⟩
  · intro a ha
    have := hx.1 a (by rw [hatl, ha])
    rw [hcon] at this
    exact this
  · intro ha
    refine ⟨hx.2 (by rw [hatl, ha]), ?_⟩
    intro t ht
    obtain ⟨l1, -, h2, -, -, h5, h6⟩ := htoks t ht
    rw [h6]
    exact h5.2 (by rw [h2, ha])
  · intro a b
    unfold glyph_advance
    by_cases hb : H.GLYPH_METRICS_CAPACITY ≤ b
    · simp [hb]
    · simp [hb]

/-- Witness of C14: two calls on the buffer `ab c` with an atlas of width 2 per
glyph, and without an atlas. -/
theorem lexer_x_tracking_witness :
    (∃ toks lN,
      lexer_run exampleHeader 2
        (lexer_new (some ⟨List.replicate 128 ⟨2⟩⟩) [97, 98, 32, 99] none) = some (toks, lN) ∧
      lN.x = (slice [97, 98, 32, 99] lN.bol (lN.cursor - lN.bol)).foldl
        (fun acc b => acc + glyph_advance exampleHeader ⟨List.replicate 128 ⟨2⟩⟩ b) 0) ∧
    (∃ toks lN,
      lexer_run exampleHeader 2 (lexer_new none [97, 98, 32, 99] none) = some (toks, lN) ∧
      lN.x = 0 ∧ ∀ t ∈ toks, t.position.x = 0) := by
  constructor
  · obtain ⟨toks, lN, h1, h2, -, -⟩ :=
      lexer_x_tracking exampleHeader (some ⟨List.replicate 128 ⟨2⟩⟩) [97, 98, 32, 99] none 2
    exact ⟨toks, lN, h1, h2 _ rfl⟩
  · obtain ⟨toks, lN, h1, -, h3, -⟩ :=
      lexer_x_tracking exampleHeader none [97, 98, 32, 99] none 2
    exact ⟨toks, lN, h1, (h3 rfl).1, (h3 rfl).2⟩

/-! ## Token positions -/

theorem float_round_small (n : Nat) (h : n < 2 ^ 24) : float_round n = n := by
  have he : excess_bits n n = 0 := by
    cases n with
    | zero => rfl
    | succ m => rw [excess_bits, if_pos h]
  unfold float_round
  simp [he]

theorem float_round_le (n : Nat) (h : n ≤ 2 ^ 24) : float_round n = n := by
  by_cases hlt : n < 2 ^ 24
  · exact float_round_small n hlt
  · have : n = 2 ^ 24 := by omega
    rw [this]
    decide

theorem float_of_int_neg (z : Int) : float_of_int (-z) = -(float_of_int z) := by
  unfold float_of_int
  rw [Int.natAbs_neg]
  by_cases h1 : z < 0
  · have h2 : ¬ (-z < 0) := by omega
    rw [if_pos h1, if_neg h2, Int.neg_neg]
  · by_cases h3 : z = 0
    · subst h3
      decide
    · have h2 : -z < 0 := by omega
      rw [if_neg h1, if_pos h2]

theorem float_of_int_small (z : Int) (h : z.natAbs < 2 ^ 24) : float_of_int z = z := by
  unfold float_of_int
  rw [float_round_small _ h]
  by_cases h1 : z < 0
  · rw [if_pos h1]; omega
  · rw [if_neg h1]; omega

/-- The value of `position.y` when the line count, the line height and their
product are `float`s. -/
theorem line_y_exact (H : Header) (n : Nat) (hn : n ≤ 2 ^ 24)
    (hf : float_of_int H.FREE_GLYPH_FONT_SIZE = H.FREE_GLYPH_FONT_SIZE)
    (hp : float_of_int (H.FREE_GLYPH_FONT_SIZE * (n : Int)) = H.FREE_GLYPH_FONT_SIZE * (n : Int)) :
    line_y H n = -(H.FREE_GLYPH_FONT_SIZE * (n : Int)) := by
  unfold line_y float_mul float_of_size_t
  rw [float_round_le n hn, hf, Int.neg_mul, float_of_int_neg, Int.mul_comm, hp]

/-- The second call on the buffer `a`, newline, `bb`: the token `bb`, at offset
2, with `x` zero on line 1. -/
theorem second_token_position (H : Header) (l0 : Lexer)
    (hcon : l0.content = [97, 10, 98, 98]) (hcur : l0.cursor = 0) (hline : l0.line = 0) :
    (next_token H (next_state H l0)).text = 2 ∧
      (next_token H (next_state H l0)).text_len = 2 ∧
      (next_token H (next_state H l0)).position = ⟨0, line_y H 1⟩ := by
  have hr0 : l0.rest = [97, 10, 98, 98] := by rw [Lexer.rest, hcon, hcur]; rfl
  have hs1 : next_state H l0 = chop_step H l0 97 := by
    unfold next_state
    rw [Lexer.lexeme_rest, hr0]
    show advance H l0 1 = _
    rw [advance_succ, hcon, hcur]
    rfl
  have hc1 : (chop_step H l0 97).cursor = 1 := by rw [chop_step_cursor, hcur]
  have hr1 : (chop_step H l0 97).rest = [10, 98, 98] := by
    rw [Lexer.rest, chop_step_content, hc1, hcon]; rfl
  have hl1 : (chop_step H l0 97).line = 0 := by
    rw [(chop_step_other H l0 97 (by decide)).1, hline]
  have ha : advance H (chop_step H l0 97) 1 = chop_step H (chop_step H l0 97) 10 := by
    rw [advance_succ, chop_step_content, hc1, hcon]
    rfl
  rw [hs1]
  unfold next_token
  simp only [Lexer.lexeme_rest, hr1]
  refine ⟨?_, rfl, ?_⟩
  · show (chop_step H l0 97).cursor + 1 = 2
    rw [hc1]
  · show (⟨(advance H (chop_step H l0 97) 1).x,
      line_y H (advance H (chop_step H l0 97) 1).line⟩ : Vec2f) = _
    rw [ha, chop_step_newline]
    simp only [hl1]

/-- The first token of a buffer of `N` newlines and an `a`: it is at offset `N`,
after `N` newlines. -/
theorem newlines_then_a (H : Header) (atlas : Option Free_Glyph_Atlas)
    (file_path : Option (List Nat)) (N : Nat) :
    ∃ t lN,
      lexer_run H 1 (lexer_new atlas (List.replicate N 10 ++ [97]) file_path)
        = some ([t], lN) ∧
      ((List.replicate N 10 ++ [97]).take t.text).count 10 = N ∧
      t.position.y = line_y H N := by
  have hcur := lexer_new_cursor atlas (List.replicate N 10 ++ [97]) file_path
  have hcon := lexer_new_content atlas (List.replicate N 10 ++ [97]) file_path
  have hrun : lexer_run H 1 (lexer_new atlas (List.replicate N 10 ++ [97]) file_path) =
      some ([next_token H (lexer_new atlas (List.replicate N 10 ++ [97]) file_path)],
        next_state H (lexer_new atlas (List.replicate N 10 ++ [97]) file_path)) := by
    rw [lexer_run_succ]
    rfl
  have hws : ws_len (lexer_new atlas (List.replicate N 10 ++ [97]) file_path).rest = N := by
    rw [Lexer.rest, hcur, hcon, List.drop_zero, ws_len,
      (takeWhile_append_stop isspace (List.replicate N 10) 97 []
        (fun b hb => by rw [(List.mem_replicate.mp hb).2]; decide) (by decide)).1,
      List.length_replicate]
  have htext : (next_token H (lexer_new atlas (List.replicate N 10 ++ [97]) file_path)).text
      = N := by
    show (lexer_new atlas (List.replicate N 10 ++ [97]) file_path).cursor + _ = N
    rw [hws, hcur, Nat.zero_add]
  have hcount : ((List.replicate N 10 ++ [97]).take N).count 10 = N := by
    rw [List.take_left' (List.length_replicate N 10), List.count_replicate_self]
  obtain ⟨toks, lN, hrun2, -, -, -, -, -, htoks⟩ :=
    lexer_run_tracked H atlas (List.replicate N 10 ++ [97]) file_path 1
  rw [hrun] at hrun2
  simp only [Option.some.injEq, Prod.mk.injEq] at hrun2
  obtain ⟨l1, h1, -, h3, h4, -, h6⟩ := htoks _ (by rw [← hrun2.1]; exact List.mem_singleton.mpr rfl)
  refine ⟨_, _, hrun, ?_, ?_⟩
  · rw [htext, hcount]
  · rw [h6]
    show line_y H l1.line = _
    rw [h4.1, h1, h3, htext, hcount]

/-- C15 (as amended). The token that `lexer_next` returns, the end token
included, has `position.x` equal to the `x` of the lexer after the leading
whitespace has been consumed, at the first byte of the token, and `position.y`
equal to the `float` product of minus the `line` there, converted to `float`,
and the line height. Scanning from a fresh lexer, `line` is the number of
newline bytes before the first byte of the token, and `position.y` is minus the
line height times that number whenever the number is at most 2^24 and the line
height and the product are `float` values. In the buffer `a`, newline, `bb` the
token `bb` has `position.x = 0` and, for a line height below 2^24,
`position.y = -(1 * line height)`. -/
theorem lexer_token_position (H : Header) :
    (∀ l tok l2, lexer_next H l = some (tok, l2) →
      ∃ l1, lexer_trim_left H l = some l1 ∧ l1.cursor = tok.text ∧
        tok.position.x = l1.x ∧
        tok.position.y =
          float_mul (-(float_of_size_t l1.line)) (float_of_int H.FREE_GLYPH_FONT_SIZE)) ∧
    (∀ atlas content file_path n, ∃ toks lN,
      lexer_run H n (lexer_new atlas content file_path) = some (toks, lN) ∧
      ∀ t ∈ toks,
        t.position.y =
          float_mul (-(float_of_size_t ((content.take t.text).count 10)))
            (float_of_int H.FREE_GLYPH_FONT_SIZE) ∧
        ((content.take t.text).count 10 ≤ 2 ^ 24 →
          float_of_int H.FREE_GLYPH_FONT_SIZE = H.FREE_GLYPH_FONT_SIZE →
          float_of_int (H.FREE_GLYPH_FONT_SIZE * (((content.take t.text).count 10 : Nat) : Int))
            = H.FREE_GLYPH_FONT_SIZE * (((content.take t.text).count 10 : Nat) : Int) →
          t.position.y =
            -(H.FREE_GLYPH_FONT_SIZE * (((content.take t.text).count 10 : Nat) : Int)))) ∧
    (∀ atlas file_path, H.FREE_GLYPH_FONT_SIZE.natAbs < 2 ^ 24 → ∃ t1 t2 lN,
      lexer_run H 2 (lexer_new atlas [97, 10, 98, 98] file_path) = some ([t1, t2], lN) ∧
      t2.bytes_in [97, 10, 98, 98] = [98, 98] ∧
      t2.position = ⟨0, -(1 * H.FREE_GLYPH_FONT_SIZE)⟩) := by
  refine ⟨?_, ?_, ?_⟩
  · intro l tok l2 hn
    rw [lexer_next_eq] at hn
    simp only [Option.some.injEq, Prod.mk.injEq] at hn
    obtain ⟨rfl, -⟩ := hn
    refine ⟨advance H l (l.rest.takeWhile isspace).length,
      lexer_chop_while_eq H isspace _ l (Nat.le_refl _), ?_, rfl, rfl⟩
    rw [advance_cursor]
    rfl
  · intro atlas content file_path n
    obtain ⟨toks, lN, hrun, -, -, -, -, -, htoks⟩ :=
      lexer_run_tracked H atlas content file_path n
    refine ⟨toks, lN, hrun, ?_⟩
    intro t ht
    obtain ⟨l1, h1, -, h3, h4, -, h6⟩ := htoks t ht
    have hy : t.position.y = line_y H ((content.take t.text).count 10) := by
      rw [h6]
      show line_y H l1.line = _
      rw [h4.1, h1, h3]
    refine ⟨hy, ?_⟩
    intro hn hf hp
    rw [hy]
    exact line_y_exact H _ hn hf hp
  · intro atlas file_path hF
    have hrun : lexer_run H 2 (lexer_new atlas [97, 10, 98, 98] file_path) =
        some ([next_token H (lexer_new atlas [97, 10, 98, 98] file_path),
          next_token H (next_state H (lexer_new atlas [97, 10, 98, 98] file_path))],
          next_state H (next_state H (lexer_new atlas [97, 10, 98, 98] file_path))) := by
      rw [lexer_run_succ, lexer_run_succ]
      rfl
    have hp := second_token_position H (lexer_new atlas [97, 10, 98, 98] file_path)
      (lexer_new_content _ _ _) (lexer_new_cursor _ _ _) (by rw [lexer_new_eq])
    have hy : line_y H 1 = -(1 * H.FREE_GLYPH_FONT_SIZE) := by
      have hf := float_of_int_small _ hF
      have := line_y_exact H 1 (by decide) hf (by
        rw [show H.FREE_GLYPH_FONT_SIZE * ((1 : Nat) : Int) = H.FREE_GLYPH_FONT_SIZE from by simp]
        exact hf)
      rw [this, Int.mul_comm]
      rfl
    refine ⟨_, _, _, hrun, ?_, ?_⟩
    · rw [Token.bytes_in, hp.1, hp.2.1]
      rfl
    · rw [hp.2.2, hy]

/-- Witness of C15: the token `b` of the buffer `a`, newline, space, `b`, from
offset 1 on line 0, and the token `bb` of the buffer `a`, newline, `bb` with the
line height 64. -/
theorem lexer_token_position_witness :
    lexer_next exampleHeader ⟨none, [97, 10, 32, 98], 1, 0, 0, 0, FEXT_CPP, none⟩ =
      some (⟨TOKEN_SYMBOL, 3, 1, ⟨0, -64⟩⟩,
        ⟨none, [97, 10, 32, 98], 4, 1, 2, 0, FEXT_CPP, none⟩) ∧
    (∃ l1, lexer_trim_left exampleHeader ⟨none, [97, 10, 32, 98], 1, 0, 0, 0, FEXT_CPP, none⟩
        = some l1 ∧ l1.cursor = 3 ∧ (0 : Int) = l1.x ∧
      (-64 : Int) = float_mul (-(float_of_size_t l1.line))
        (float_of_int exampleHeader.FREE_GLYPH_FONT_SIZE)) ∧
    exampleHeader.FREE_GLYPH_FONT_SIZE.natAbs < 2 ^ 24 ∧
    ∃ t1 t2 lN,
      lexer_run exampleHeader 2 (lexer_new none [97, 10, 98, 98] none) = some ([t1, t2], lN) ∧
      t2.bytes_in [97, 10, 98, 98] = [98, 98] ∧
      t2.position = ⟨0, -(1 * exampleHeader.FREE_GLYPH_FONT_SIZE)⟩ :=
  ⟨by decide,
    (lexer_token_position exampleHeader).1
      ⟨none, [97, 10, 32, 98], 1, 0, 0, 0, FEXT_CPP, none⟩ ⟨TOKEN_SYMBOL, 3, 1, ⟨0, -64⟩⟩
      ⟨none, [97, 10, 32, 98], 4, 1, 2, 0, FEXT_CPP, none⟩ (by decide),
    by decide,
    (lexer_token_position exampleHeader).2.2 none none (by decide)⟩

/-- Counterexample to C15 as stated: in the buffer of 16777217 newlines and an
`a`, scanned with the line height 64, the token `a` has
`position.y = -1073741824`, the `float` product of `-(float)16777217 = -16777216`
and 64, and not `-(64 * 16777217) = -1073741888`. -/
theorem token_y_counterexample :
    ¬ token_y_as_claimed exampleHeader none (List.replicate 16777217 10 ++ [97]) none := by
  intro hc
  obtain ⟨t, lN, hrun, hcount, hy⟩ := newlines_then_a exampleHeader none none 16777217
  have h := hc 1 [t] lN hrun t (List.mem_singleton.mpr rfl)
  rw [hcount, hy] at h
  revert h
  decide

/-! ## Identifiers are maximal runs -/

theorem classify_symbol_start (kws : List (List Nat)) (c : Nat) (r : List Nat)
    (hs : isalpha c = true ∨ c = 95) :
    classify kws (c :: r) =
      (if (c :: r).takeWhile is_symbol ∈ kws then TOKEN_KEYWORD else TOKEN_SYMBOL,
        ((c :: r).takeWhile is_symbol).length) := by
  have hrange : (65 ≤ c ∧ c ≤ 90) ∨ (97 ≤ c ∧ c ≤ 122) ∨ c = 95 := by
    rcases hs with h | h
    · simp only [isalpha, Bool.or_eq_true, Bool.and_eq_true, decide_eq_true_eq] at h
      omega
    · exact Or.inr (Or.inr h)
  have hst : is_symbol_start c = true := by
    rcases hs with h | h
    · simp [is_symbol_start, h]
    · simp [is_symbol_start, h]
  have hlk : literal_kind c = none := by
    unfold literal_kind
    rw [if_neg (by omega), if_neg (by omega), if_neg (by omega), if_neg (by omega),
      if_neg (by omega)]
  rw [classify_cons, if_neg (by omega), if_neg (by omega),
    if_neg (fun hh => by have := hh.1; omega), hlk]
  simp only []
  rw [if_pos hst]

theorem is_symbol_iff (b : Nat) : is_symbol b = true ↔ (isalnum b = true ∨ b = 95) := by
  simp [is_symbol]

theorem takeWhile_unique (p : Nat → Bool) (l pre post : List Nat) (h : l = pre ++ post)
    (hpre : ∀ b ∈ pre, p b = true) (hpost : ∀ b, post.head? = some b → p b = false) :
    l.takeWhile p = pre := by
  subst h
  cases post with
  | nil => rw [List.append_nil]; exact (takeWhile_all p pre hpre).1
  | cons x post => exact (takeWhile_append_stop p pre x post hpre (hpost x rfl)).1

/-- C16. When the first byte at or after the cursor that is not whitespace is
alphabetic or an underscore, `lexer_next` returns a symbol or keyword token whose
text is the longest run of alphanumeric-or-underscore bytes that starts there:
every byte of the text is one, the byte right after the token, if any, is not,
and whatever splits the bytes left into such a run and a rest gives the text.
The text, which does not depend on the keyword table, starts with that first
byte, which is not a digit. -/
theorem lexer_next_identifier (H : Header) (l : Lexer) (c : Nat) (r : List Nat)
    (h : l.lexeme_rest = c :: r) (hs : isalpha c = true ∨ c = 95) :
    ∃ k, (k = TOKEN_SYMBOL ∨ k = TOKEN_KEYWORD) ∧
      lexer_next_yields H l k ((c :: r).takeWhile is_symbol) ∧
      (∀ b ∈ (c :: r).takeWhile is_symbol, isalnum b = true ∨ b = 95) ∧
      (∀ b, ((c :: r).drop ((c :: r).takeWhile is_symbol).length).head? = some b →
        ¬ (isalnum b = true ∨ b = 95)) ∧
      ((c :: r).takeWhile is_symbol).head? = some c ∧ ¬ (48 ≤ c ∧ c ≤ 57) ∧
      (∀ id post, c :: r = id ++ post → (∀ b ∈ id, isalnum b = true ∨ b = 95) →
        (∀ b, post.head? = some b → ¬ (isalnum b = true ∨ b = 95)) →
        lexer_next_yields H l k id) := by
  have base := lexer_next_yields_classify H l
  rw [h, classify_symbol_start _ c r hs] at base
  simp only [] at base
  rw [take_takeWhile_length] at base
  have hst : is_symbol c = true := by
    apply is_symbol_of_start
    rcases hs with h1 | h1
    · simp [is_symbol_start, h1]
    · simp [is_symbol_start, h1]
  refine ⟨_, ?_, base, ?_, ?_, ?_, ?_, ?_⟩
  · by_cases hm : List.takeWhile is_symbol (c :: r) ∈ keywords_of H l.file_ext
    · right; rw [if_pos hm]
    · left; rw [if_neg hm]
  · intro b hb
    exact (is_symbol_iff b).mp (List.mem_takeWhile_imp hb)
  · intro b hb
    rw [drop_takeWhile_length] at hb
    intro hh
    have h1 := (is_symbol_iff b).mpr hh
    cases hd : List.dropWhile is_symbol (c :: r) with
    | nil => rw [hd] at hb; simp at hb
    | cons x xs =>
      rw [hd] at hb
      simp only [List.head?_cons, Option.some.injEq] at hb
      have := List.head_dropWhile_not is_symbol (c :: r) (by rw [hd]; simp)
      simp only [hd, List.head_cons] at this
      rw [hb, h1] at this
      exact absurd this (by simp)
  · rw [List.takeWhile_cons_of_pos hst]
    rfl
  · rcases hs with h1 | h1
    · simp only [isalpha, Bool.or_eq_true, Bool.and_eq_true, decide_eq_true_eq] at h1
      omega
    · omega
  · intro id post hsplit hid hpost
    have := takeWhile_unique is_symbol (c :: r) id post hsplit
      (fun b hb => (is_symbol_iff b).mpr (hid b hb))
      (fun b hb => by
        have := hpost b hb
        cases hv : is_symbol b with
        | false => rfl
        | true => exact absurd ((is_symbol_iff b).mp hv) this)
    rw [← this]
    exact base

/-- Witness of C16: the identifier `if_1` of the buffer ` if_1+`, which starts
with the keyword `if`. -/
theorem lexer_next_identifier_witness :
    (lexer_new none (bytes " if_1+") none).lexeme_rest = 105 :: bytes "f_1+" ∧
    (isalpha 105 = true ∨ 105 = 95) ∧
    ∃ k, (k = TOKEN_SYMBOL ∨ k = TOKEN_KEYWORD) ∧
      lexer_next_yields exampleHeader (lexer_new none (bytes " if_1+") none) k (bytes "if_1") := by
  refine ⟨by decide, by decide, ?_⟩
  obtain ⟨k, hk, -, -, -, -, -, h7⟩ :=
    lexer_next_identifier exampleHeader (lexer_new none (bytes " if_1+") none) 105
      (bytes "f_1+") (by decide) (by decide)
  exact ⟨k, hk, h7 (bytes "if_1") (bytes "+") (by decide) (by decide) (by decide)⟩

/-! ## Tokens lie on one line -/

theorem newline_last (a z pre post : List Nat) (ha : 10 ∉ a) (hz : z.length ≤ 1)
    (h : a ++ z = pre ++ 10 :: post) : post = [] := by
  rcases List.append_eq_append_iff.mp h with ⟨a2, -, h2⟩ | ⟨c2, h1, h2⟩
  · rw [h2] at hz
    simp only [List.length_append, List.length_cons] at hz
    apply List.eq_nil_of_length_eq_zero
    omega
  · cases c2 with
    | nil =>
      rw [List.nil_append] at h2
      rw [← h2] at hz
      simp only [List.length_cons] at hz
      apply List.eq_nil_of_length_eq_zero
      omega
    | cons x cs =>
      rw [List.cons_append] at h2
      have hx : 10 = x := (List.cons.inj h2).1
      exact absurd (by rw [h1, hx]; simp) ha

theorem ne_newline_of_not_space (b : Nat) (h : isspace b = false) : b ≠ 10 := by
  intro e
  rw [e] at h
  exact absurd h (by decide)

theorem not_space_of_is_symbol (b : Nat) (h : is_symbol b = true) : isspace b = false := by
  simp only [is_symbol, isalnum, isalpha, Bool.or_eq_true, Bool.and_eq_true,
    decide_eq_true_eq, beq_iff_eq] at h
  simp only [isspace, Bool.or_eq_false_iff, beq_eq_false_iff_ne, ne_eq, Bool.and_eq_false_imp,
    decide_eq_true_eq, decide_eq_false_iff_not]
  omega

theorem dropWhile_head_not (p : Nat → Bool) (l : List Nat) (b : Nat)
    (h : (l.dropWhile p).head? = some b) : p b = false := by
  induction l with
  | nil => simp at h
  | cons a l ih =>
    by_cases ha : p a = true
    · rw [List.dropWhile_cons_of_pos ha] at h
      exact ih h
    · rw [List.dropWhile_cons_of_neg ha] at h
      simp only [List.head?_cons, Option.some.injEq] at h
      rw [← h]
      simpa using ha

theorem not_mem_takeWhile_ne (r : List Nat) : 10 ∉ r.takeWhile (fun b => b != 10) := by
  intro h
  have := List.mem_takeWhile_imp h
  simp at this

/-- The text that `classify` gives, for bytes left that do not start with
whitespace, splits into a part without newline and at most one last byte; for
the kinds other than string, directive and comment there is no last byte and
no whitespace. -/
theorem classify_text (kws : List (List Nat)) (r : List Nat)
    (hh : ∀ b, r.head? = some b → isspace b = false) :
    (∃ a z, r.take (classify kws r).2 = a ++ z ∧ 10 ∉ a ∧ z.length ≤ 1 ∧
      (((classify kws r).1 = TOKEN_STRING ∨ (classify kws r).1 = TOKEN_PREPROC ∨
          (classify kws r).1 = TOKEN_COMMENT) ∨
        (z = [] ∧ ∀ b ∈ a, isspace b = false))) ∧
    ((classify kws r).1 ≠ TOKEN_END →
      ∃ b, (r.take (classify kws r).2).head? = some b ∧ isspace b = false) := by
  cases r with
  | nil =>
    refine ⟨⟨[], [], by simp [classify], by simp, by simp, Or.inr ⟨rfl, by simp⟩⟩, ?_⟩
    intro h
    exact absurd rfl h
  | cons c r =>
    have hc : isspace c = false := hh c rfl
    have hc10 : c ≠ 10 := ne_newline_of_not_space c hc
    have hhead : (classify kws (c :: r)).1 ≠ TOKEN_END →
        ∃ b, ((c :: r).take (classify kws (c :: r)).2).head? = some b ∧ isspace b = false := by
      intro _
      have hp := classify_snd_pos kws c r
      obtain ⟨m, hm⟩ : ∃ m, (classify kws (c :: r)).2 = m + 1 :=
        ⟨(classify kws (c :: r)).2 - 1, by omega⟩
      rw [hm, List.take_succ_cons]
      exact ⟨c, rfl, hc⟩
    refine ⟨?_, hhead⟩
    rw [classify_cons]
    by_cases h34 : c = 34
    · rw [if_pos h34]
      simp only []
      rw [Nat.add_comm 1, List.take_succ_cons, take_through_len]
      refine ⟨c :: List.takeWhile (fun b => b != 34 && b != 10) r, _, rfl, ?_, ?_,
        Or.inl (Or.inl (by first | rfl | trivial))⟩
      · intro hm
        rcases List.mem_cons.mp hm with e | hm
        · exact hc10 e.symm
        · have := List.mem_takeWhile_imp hm
          simp at this
      · rw [List.length_take]
        omega
    rw [if_neg h34]
    by_cases h35 : c = 35
    · rw [if_pos h35]
      simp only []
      rw [take_through_len]
      exact ⟨_, _, rfl, not_mem_takeWhile_ne _, by rw [List.length_take]; omega,
        Or.inl (Or.inr (Or.inl (by first | rfl | trivial)))⟩
    rw [if_neg h35]
    by_cases h47 : c = 47 ∧ r.head? = some 47
    · rw [if_pos h47]
      simp only []
      rw [take_through_len]
      exact ⟨_, _, rfl, not_mem_takeWhile_ne _, by rw [List.length_take]; omega,
        Or.inl (Or.inr (Or.inr (by first | rfl | trivial)))⟩
    rw [if_neg h47]
    have hone : ∀ b ∈ [c], isspace b = false := by
      intro b hb
      rw [List.mem_singleton.mp hb]
      exact hc
    have hone10 : 10 ∉ [c] := fun hm => hc10 (List.mem_singleton.mp hm).symm
    cases literal_kind c with
    | some k =>
      simp only [List.take_succ_cons, List.take_zero]
      exact ⟨[c], [], rfl, hone10, by simp, Or.inr ⟨rfl, hone⟩⟩
    | none =>
      simp only []
      by_cases hs : is_symbol_start c = true
      · rw [if_pos hs]
        simp only []
        rw [take_takeWhile_length]
        refine ⟨_, [], (List.append_nil _).symm, ?_, by simp, Or.inr ⟨rfl, ?_⟩⟩
        · intro hm
          have := not_space_of_is_symbol 10 (List.mem_takeWhile_imp hm)
          exact absurd this (by decide)
        · intro b hb
          exact not_space_of_is_symbol b (List.mem_takeWhile_imp hb)
      · rw [if_neg hs]
        simp only [List.take_succ_cons, List.take_zero]
        exact ⟨[c], [], rfl, hone10, by simp, Or.inr ⟨rfl, hone⟩⟩

/-- C20. In the text of a token that `lexer_next` returns, a newline byte can be
only the last byte, and there is one only in tokens of kind string, directive or
comment; the text of a token of kind symbol, keyword, invalid or of one of the
five punctuation kinds has no whitespace byte; and the text of a token other
than the end token starts with a byte that is not whitespace. -/
theorem lexer_next_single_line (H : Header) (l : Lexer) (tok : Token) (l2 : Lexer)
    (hn : lexer_next H l = some (tok, l2)) :
    (∀ pre post, tok.bytes_in l.content = pre ++ 10 :: post → post = []) ∧
    (10 ∈ tok.bytes_in l.content →
      tok.kind = TOKEN_STRING ∨ tok.kind = TOKEN_PREPROC ∨ tok.kind = TOKEN_COMMENT) ∧
    (tok.kind ∈ [TOKEN_SYMBOL, TOKEN_KEYWORD, TOKEN_INVALID, TOKEN_OPEN_PAREN,
        TOKEN_CLOSE_PAREN, TOKEN_OPEN_CURLY, TOKEN_CLOSE_CURLY, TOKEN_SEMICOLON] →
      ∀ b ∈ tok.bytes_in l.content, isspace b = false) ∧
    (tok.kind ≠ TOKEN_END →
      ∃ b, (tok.bytes_in l.content).head? = some b ∧ isspace b = false) := by
  rw [lexer_next_eq] at hn
  simp only [Option.some.injEq, Prod.mk.injEq] at hn
  obtain ⟨rfl, -⟩ := hn
  have hb := bytes_in_take l (next_token H l) rfl
  have hk : (next_token H l).kind = (classify (keywords_of H l.file_ext) l.lexeme_rest).1 := rfl
  have hlen : (next_token H l).text_len
      = (classify (keywords_of H l.file_ext) l.lexeme_rest).2 := rfl
  obtain ⟨⟨a, z, h1, h2, h3, h4⟩, h5⟩ :=
    classify_text (keywords_of H l.file_ext) l.lexeme_rest
      (fun b hb => dropWhile_head_not isspace l.rest b hb)
  rw [hb, hk, hlen]
  refine ⟨?_, ?_, ?_, h5⟩
  · intro pre post hsplit
    rw [h1] at hsplit
    exact newline_last a z pre post h2 h3 hsplit
  · intro hm
    rcases h4 with h4 | ⟨hz, -⟩
    · exact h4
    · rw [h1, hz, List.append_nil] at hm
      exact absurd hm h2
  · intro hkind b hbm
    rcases h4 with h4 | ⟨hz, hall⟩
    · rcases h4 with h4 | h4 | h4 <;> rw [h4] at hkind <;> exact absurd hkind (by decide)
    · rw [h1, hz, List.append_nil] at hbm
      exact hall b hbm

/-- Witness of C20: the directive `#x`, newline, of the buffer `#x`, newline,
`y`. -/
theorem lexer_next_single_line_witness :
    lexer_next exampleHeader (lexer_new none [35, 120, 10, 121] none) =
      some (⟨TOKEN_PREPROC, 0, 3, ⟨0, 0⟩⟩,
        ⟨none, [35, 120, 10, 121], 3, 1, 3, 0, FEXT_CPP, none⟩) ∧
    (∀ pre post, ([35, 120, 10] : List Nat) = pre ++ 10 :: post → post = []) :=
  ⟨by decide,
    (lexer_next_single_line exampleHeader (lexer_new none [35, 120, 10, 121] none)
      ⟨TOKEN_PREPROC, 0, 3, ⟨0, 0⟩⟩ ⟨none, [35, 120, 10, 121], 3, 1, 3, 0, FEXT_CPP, none⟩
      (by decide)).1⟩

/-! ## Token boundaries and the language -/

theorem chop_step_with_language (H : Header) (l : Lexer) (e : File_Extension)
    (p : Option (List Nat)) (x : Nat) :
    chop_step H (l.with_language e p) x = (chop_step H l x).with_language e p := by
  unfold chop_step Lexer.with_language
  by_cases hx : x = 10
  · simp [hx]
  · cases ha : l.atlas <;> simp [hx, ha]

theorem advance_with_language (H : Header) (l : Lexer) (e : File_Extension)
    (p : Option (List Nat)) (n : Nat) :
    advance H (l.with_language e p) n = (advance H l n).with_language e p := by
  induction n generalizing l with
  | zero => rfl
  | succ n ih =>
    rw [advance_succ, advance_succ]
    have : (l.with_language e p).content.getD (l.with_language e p).cursor 0
        = l.content.getD l.cursor 0 := rfl
    rw [this, chop_step_with_language, ih]

/-- The length that `classify` gives does not depend on the keyword table, and
the kind depends on it only between symbol and keyword. -/
theorem classify_tables (kws kws2 : List (List Nat)) (r : List Nat) :
    (classify kws r).2 = (classify kws2 r).2 ∧
      ((classify kws r).1 = (classify kws2 r).1 ∨
        (((classify kws r).1 = TOKEN_SYMBOL ∨ (classify kws r).1 = TOKEN_KEYWORD) ∧
          ((classify kws2 r).1 = TOKEN_SYMBOL ∨ (classify kws2 r).1 = TOKEN_KEYWORD))) := by
  cases r with
  | nil => exact ⟨rfl, Or.inl rfl⟩
  | cons c r =>
    rw [classify_cons, classify_cons]
    by_cases h34 : c = 34
    · rw [if_pos h34, if_pos h34]; exact ⟨rfl, Or.inl rfl⟩
    rw [if_neg h34, if_neg h34]
    by_cases h35 : c = 35
    · rw [if_pos h35, if_pos h35]; exact ⟨rfl, Or.inl rfl⟩
    rw [if_neg h35, if_neg h35]
    by_cases h47 : c = 47 ∧ r.head? = some 47
    · rw [if_pos h47, if_pos h47]; exact ⟨rfl, Or.inl rfl⟩
    rw [if_neg h47, if_neg h47]
    cases literal_kind c with
    | some k => exact ⟨rfl, Or.inl rfl⟩
    | none =>
      by_cases hs : is_symbol_start c = true
      · simp only [if_pos hs]
        refine ⟨trivial, Or.inr ⟨?_, ?_⟩⟩
        · by_cases hm : List.takeWhile is_symbol (c :: r) ∈ kws
          · right; rw [if_pos hm]
          · left; rw [if_neg hm]
        · by_cases hm : List.takeWhile is_symbol (c :: r) ∈ kws2
          · right; rw [if_pos hm]
          · left; rw [if_neg hm]
      · simp only [if_neg hs]
        exact ⟨trivial, Or.inl trivial⟩

theorem next_state_with_language (H : Header) (l : Lexer) (e : File_Extension)
    (p : Option (List Nat)) :
    next_state H (l.with_language e p) = (next_state H l).with_language e p := by
  have h := (classify_tables (keywords_of H e) (keywords_of H l.file_ext) l.lexeme_rest).1
  show advance H (l.with_language e p)
    (ws_len l.rest + (classify (keywords_of H e) l.lexeme_rest).2) = _
  rw [h, advance_with_language]
  rfl

theorem next_token_with_language (H : Header) (l : Lexer) (e : File_Extension)
    (p : Option (List Nat)) :
    same_span (next_token H l) (next_token H (l.with_language e p)) := by
  have h := classify_tables (keywords_of H l.file_ext) (keywords_of H e) l.lexeme_rest
  refine ⟨rfl, h.1, ?_, h.2⟩
  show (⟨(advance H l (ws_len l.rest)).x,
      line_y H (advance H l (ws_len l.rest)).line⟩ : Vec2f) =
    ⟨(advance H (l.with_language e p) (ws_len l.rest)).x,
      line_y H (advance H (l.with_language e p) (ws_len l.rest)).line⟩
  rw [advance_with_language]
  rfl

theorem lexer_run_with_language (H : Header) (l : Lexer) (e : File_Extension)
    (p : Option (List Nat)) (n : Nat) :
    ∃ toks toks2 lN,
      lexer_run H n l = some (toks, lN) ∧
      lexer_run H n (l.with_language e p) = some (toks2, lN.with_language e p) ∧
      List.Forall₂ same_span toks toks2 := by
  induction n generalizing l with
  | zero => exact ⟨[], [], l, rfl, rfl, List.Forall₂.nil⟩
  | succ n ih =>
    obtain ⟨ts, ts2, lN, h1, h2, h3⟩ := ih (next_state H l)
    refine ⟨next_token H l :: ts, next_token H (l.with_language e p) :: ts2, lN, ?_, ?_,
      List.Forall₂.cons (next_token_with_language H l e p) h3⟩
    · rw [lexer_run_succ, h1]; rfl
    · rw [lexer_run_succ, next_state_with_language, h2]; rfl

theorem lexer_new_with_language (atlas : Option Free_Glyph_Atlas) (content : List Nat)
    (p1 p2 : Option (List Nat)) :
    lexer_new atlas content p2 =
      (lexer_new atlas content p1).with_language (lexer_new atlas content p2).file_ext p2 := by
  have e1 := lexer_new_eq atlas content p1
  have e2 := lexer_new_eq atlas content p2
  generalize lexer_new atlas content p1 = a at e1 ⊢
  generalize lexer_new atlas content p2 = b at e2 ⊢
  rw [e1]
  unfold Lexer.with_language
  rw [e2]

/-- C19. Two lexers over the same buffer and atlas, in the same state, that
differ only in the language (and the path it was detected from): for every `n`,
the first `n` calls of `lexer_next` return tokens that agree, call by call, in
offset, length and position, and in kind except that one may be a keyword where
the other is a symbol; and they leave the same cursor, line, bol and x. So it
is for two fresh lexers over one buffer made from two paths. -/
theorem lexer_run_language_independent (H : Header) (n : Nat) :
    (∀ (l : Lexer) (e : File_Extension) (p : Option (List Nat)),
      ∃ toks toks2 lN lN2,
        lexer_run H n l = some (toks, lN) ∧
        lexer_run H n { l with file_ext := e, file_path := p } = some (toks2, lN2) ∧
        List.Forall₂ same_span toks toks2 ∧
        lN2.cursor = lN.cursor ∧ lN2.line = lN.line ∧ lN2.bol = lN.bol ∧ lN2.x = lN.x) ∧
    (∀ (atlas : Option Free_Glyph_Atlas) (content : List Nat) (p1 p2 : Option (List Nat)),
      ∃ toks toks2 lN lN2,
        lexer_run H n (lexer_new atlas content p1) = some (toks, lN) ∧
        lexer_run H n (lexer_new atlas content p2) = some (toks2, lN2) ∧
        List.Forall₂ same_span toks toks2 ∧
        lN2.cursor = lN.cursor ∧ lN2.line = lN.line ∧ lN2.bol = lN.bol ∧ lN2.x = lN.x) := by
  constructor
  · intro l e p
    obtain ⟨toks, toks2, lN, h1, h2, h3⟩ := lexer_run_with_language H l e p n
    exact ⟨toks, toks2, lN, lN.with_language e p, h1, h2, h3, rfl, rfl, rfl, rfl⟩
  · intro atlas content p1 p2
    obtain ⟨toks, toks2, lN, h1, h2, h3⟩ :=
      lexer_run_with_language H (lexer_new atlas content p1)
        (lexer_new atlas content p2).file_ext p2 n
    rw [← lexer_new_with_language] at h2
    exact ⟨toks, toks2, lN, _, h1, h2, h3, rfl, rfl, rfl, rfl⟩

end Ded
